import Mathlib

/-!
Verification development for the vocabulary-quiz engine (`app.py`).

Strings are modelled as `List Char`.  The Unicode-dependent pieces of the
text normalizer (`unicodedata.normalize('NFKD', ·)`, combining-class tests
and `str.lower`) are modelled by explicit finite character tables covering
the characters exercised by this code base (ASCII plus the accented and
punctuation characters named in the source); every character outside the
tables maps to itself, which matches `unicodedata` on the ASCII range.
-/

set_option maxHeartbeats 1000000

namespace VocabQuiz

/-- Whitespace characters recognised by `str.strip` and by `\s` in the
removal regex of `normalize_token` (the code points relevant here). -/
def wsChars : List Char := [' ', '\t', '\n', '\r', '\x0b', '\x0c', ' ']

/-- Python `str.isspace`-style test restricted to `wsChars`. -/
def isspacePy (c : Char) : Bool := wsChars.contains c

/-- Hyphen/dash/apostrophe variants removed by the regex
`[\s\-‐‑–—’']` in `normalize_token`. -/
def hyphenChars : List Char := ['-', '‐', '‑', '–', '—', '’', '\'']

/-- Character class of the removal regex in `normalize_token`:
whitespace together with the listed hyphen/apostrophe variants. -/
def removedChar (c : Char) : Bool := isspacePy c || hyphenChars.contains c

/-- Python `str.strip`: drop leading and trailing whitespace. -/
def pyStrip (l : List Char) : List Char :=
  ((l.dropWhile isspacePy).reverse.dropWhile isspacePy).reverse

/-- NFKD decomposition table (`unicodedata.normalize('NFKD', ·)`), per
character, for the accented characters used here; characters not listed
decompose to themselves. -/
def nfkdTable : List (Char × List Char) :=
  [('é', ['e', '́']), ('É', ['E', '́']),
   ('à', ['a', '̀']), ('À', ['A', '̀']),
   ('ï', ['i', '̈']), ('Ï', ['I', '̈'])]

/-- Per-character NFKD decomposition. -/
def nfkd (c : Char) : List Char := (nfkdTable.lookup c).getD [c]

/-- The combining marks (`unicodedata.combining(c) != 0`) occurring in
`nfkdTable`'s decompositions. -/
def combiningChar (c : Char) : Bool :=
  c = '́' || c = '̀' || c = '̈'

/-- Lower-case table for `str.lower` (ASCII letters; accented upper-case
letters are already decomposed by `strip_accents` before `lower` runs). -/
def lowerTable : List (Char × Char) :=
  [('A', 'a'), ('B', 'b'), ('C', 'c'), ('D', 'd'), ('E', 'e'), ('F', 'f'),
   ('G', 'g'), ('H', 'h'), ('I', 'i'), ('J', 'j'), ('K', 'k'), ('L', 'l'),
   ('M', 'm'), ('N', 'n'), ('O', 'o'), ('P', 'p'), ('Q', 'q'), ('R', 'r'),
   ('S', 's'), ('T', 't'), ('U', 'u'), ('V', 'v'), ('W', 'w'), ('X', 'x'),
   ('Y', 'y'), ('Z', 'z')]

/-- Per-character `str.lower`. -/
def toLowerPy (c : Char) : Char := (lowerTable.lookup c).getD c

/-- `strip_accents` from `app.py`: NFKD-decompose and drop combining marks. -/
def strip_accents (s : List Char) : List Char :=
  (s.flatMap nfkd).filter (fun c => !combiningChar c)

/-- `normalize_token` from `app.py`: strip accents, lower-case, strip outer
whitespace, then delete all whitespace/hyphen/apostrophe characters. -/
def normalize_token (s : List Char) : List Char :=
  (pyStrip ((strip_accents s).map toLowerPy)).filter (fun c => !removedChar c)

/-- A character is `normStable` when every stage of `normalize_token`
leaves it alone. -/
def normStable (c : Char) : Bool :=
  decide (nfkd c = [c]) && !combiningChar c && decide (toLowerPy c = c) && !removedChar c

theorem lookup_mem_of_isSome {α β : Type} [DecidableEq α] {l : List (α × β)} {a : α} {b : β}
    (h : l.lookup a = some b) : (a, b) ∈ l := by
  induction l with
  | nil => simp [List.lookup] at h
  | cons p t ih =>
    obtain ⟨k, v⟩ := p
    rw [List.lookup_cons] at h
    by_cases hp : a = k
    · subst hp
      simp at h
      subst h
      exact List.mem_cons_self _ _
    · have hne : (a == k) = false := by simp [hp]
      rw [hne] at h
      exact List.mem_cons_of_mem _ (ih h)

theorem nfkd_fully_decomposed : ∀ c : Char, ∀ d ∈ nfkd c, nfkd d = [d] := by
  intro c d hd
  unfold nfkd at hd ⊢
  cases hlk : nfkdTable.lookup c with
  | none =>
    rw [hlk] at hd
    simp at hd
    subst hd
    rw [hlk]
    rfl
  | some v =>
    rw [hlk] at hd
    simp at hd
    have hmem := lookup_mem_of_isSome hlk
    have hval : ∀ p ∈ nfkdTable, ∀ d ∈ p.2, nfkdTable.lookup d = none := by decide
    rw [hval _ hmem d hd]
    rfl

theorem toLowerPy_stable : ∀ d : Char, nfkd d = [d] → combiningChar d = false →
    nfkd (toLowerPy d) = [toLowerPy d] ∧ combiningChar (toLowerPy d) = false ∧
    toLowerPy (toLowerPy d) = toLowerPy d := by
  intro d hn hc
  unfold toLowerPy
  cases hlk : lowerTable.lookup d with
  | none =>
    refine ⟨hn, hc, ?_⟩
    simp only [Option.getD_none]
    rw [hlk]
    rfl
  | some v =>
    have hmem := lookup_mem_of_isSome hlk
    have hval : ∀ p ∈ lowerTable, nfkd p.2 = [p.2] ∧ combiningChar p.2 = false ∧
        lowerTable.lookup p.2 = none := by decide
    obtain ⟨h1, h2, h3⟩ := hval _ hmem
    simp only [Option.getD_some]
    exact ⟨h1, h2, by rw [h3]; rfl⟩

theorem mem_strip_accents_stable {s : List Char} {d : Char} (hd : d ∈ strip_accents s) :
    nfkd d = [d] ∧ combiningChar d = false := by
  unfold strip_accents at hd
  rw [List.mem_filter] at hd
  obtain ⟨hmem, hcomb⟩ := hd
  rw [List.mem_flatMap] at hmem
  obtain ⟨c, _, hdc⟩ := hmem
  refine ⟨nfkd_fully_decomposed c d hdc, ?_⟩
  simpa using hcomb

theorem mem_pyStrip {l : List Char} {c : Char} (h : c ∈ pyStrip l) : c ∈ l := by
  unfold pyStrip at h
  rw [List.mem_reverse] at h
  have h1 := (List.dropWhile_sublist _).mem h
  rw [List.mem_reverse] at h1
  exact (List.dropWhile_sublist _).mem h1

/-- Every character surviving `normalize_token` is fixed by every stage of
`normalize_token`. -/
theorem normStable_of_mem_normalize {s : List Char} {c : Char}
    (h : c ∈ normalize_token s) : normStable c = true := by
  unfold normalize_token at h
  rw [List.mem_filter] at h
  obtain ⟨hmem, hrm⟩ := h
  have hmem2 := mem_pyStrip hmem
  rw [List.mem_map] at hmem2
  obtain ⟨d, hd, hdc⟩ := hmem2
  obtain ⟨hn, hcb⟩ := mem_strip_accents_stable hd
  obtain ⟨h1, h2, h3⟩ := toLowerPy_stable d hn hcb
  subst hdc
  unfold normStable
  simp only [Bool.and_eq_true, decide_eq_true_eq, Bool.not_eq_true']
  refine ⟨⟨⟨h1, h2⟩, h3⟩, by simpa using hrm⟩

theorem flatMap_nfkd_id {l : List Char} (h : ∀ c ∈ l, nfkd c = [c]) :
    l.flatMap nfkd = l := by
  induction l with
  | nil => rfl
  | cons c t ih =>
    rw [List.flatMap_cons, h c (List.mem_cons_self _ _),
      ih (fun x hx => h x (List.mem_cons_of_mem _ hx))]
    rfl

theorem map_id_of_fixed {l : List Char} {f : Char → Char} (h : ∀ c ∈ l, f c = c) :
    l.map f = l := by
  induction l with
  | nil => rfl
  | cons c t ih =>
    rw [List.map_cons, h c (List.mem_cons_self _ _),
      ih (fun x hx => h x (List.mem_cons_of_mem _ hx))]

theorem dropWhile_eq_self_of_none {l : List Char} {p : Char → Bool}
    (h : ∀ c ∈ l, p c = false) : l.dropWhile p = l := by
  cases l with
  | nil => rfl
  | cons c t => rw [List.dropWhile_cons_of_neg (by simp [h c (List.mem_cons_self _ _)])]

theorem pyStrip_eq_self {l : List Char} (h : ∀ c ∈ l, isspacePy c = false) :
    pyStrip l = l := by
  unfold pyStrip
  rw [dropWhile_eq_self_of_none h,
    dropWhile_eq_self_of_none (fun c hc => h c (List.mem_reverse.mp hc)), List.reverse_reverse]

/-- `normalize_token` is idempotent. -/
theorem normalize_token_idem (s : List Char) :
    normalize_token (normalize_token s) = normalize_token s := by
  have hstab : ∀ c ∈ normalize_token s, normStable c = true := fun c hc =>
    normStable_of_mem_normalize hc
  have hn : ∀ c ∈ normalize_token s, nfkd c = [c] := by
    intro c hc
    have := hstab c hc
    unfold normStable at this
    simp only [Bool.and_eq_true, decide_eq_true_eq] at this
    exact this.1.1.1
  have hcb : ∀ c ∈ normalize_token s, combiningChar c = false := by
    intro c hc
    have := hstab c hc
    unfold normStable at this
    simp only [Bool.and_eq_true, Bool.not_eq_true'] at this
    exact this.1.1.2
  have hlw : ∀ c ∈ normalize_token s, toLowerPy c = c := by
    intro c hc
    have := hstab c hc
    unfold normStable at this
    simp only [Bool.and_eq_true, decide_eq_true_eq] at this
    exact this.1.2
  have hrm : ∀ c ∈ normalize_token s, removedChar c = false := by
    intro c hc
    have := hstab c hc
    unfold normStable at this
    simp only [Bool.and_eq_true, Bool.not_eq_true'] at this
    exact this.2
  have hws : ∀ c ∈ normalize_token s, isspacePy c = false := by
    intro c hc
    have := hrm c hc
    unfold removedChar at this
    simp only [Bool.or_eq_false_iff] at this
    exact this.1
  conv_lhs => rw [normalize_token]
  rw [show strip_accents (normalize_token s) = normalize_token s by
      unfold strip_accents
      rw [flatMap_nfkd_id hn]
      exact List.filter_eq_self.mpr (fun c hc => by simp [hcb c hc])]
  rw [map_id_of_fixed hlw, pyStrip_eq_self hws]
  exact List.filter_eq_self.mpr (fun c hc => by simp [hrm c hc])

/-- The accent-strip/lower-case/delete pipeline without the interior
`str.strip` step; the final filter makes the strip step redundant. -/
def normNoStrip (s : List Char) : List Char :=
  ((strip_accents s).map toLowerPy).filter (fun c => !removedChar c)

theorem filter_dropWhile_absorb {p q : Char → Bool} {l : List Char}
    (h : ∀ a, p a = true → q a = false) :
    (l.dropWhile p).filter q = l.filter q := by
  induction l with
  | nil => rfl
  | cons c t ih =>
    by_cases hp : p c = true
    · rw [List.dropWhile_cons_of_pos hp, ih, List.filter_cons_of_neg (by simp [h c hp])]
    · rw [List.dropWhile_cons_of_neg (by simpa using hp)]

theorem filter_pyStrip_absorb {q : Char → Bool} {l : List Char}
    (h : ∀ a, isspacePy a = true → q a = false) :
    (pyStrip l).filter q = l.filter q := by
  unfold pyStrip
  rw [List.filter_reverse, filter_dropWhile_absorb h, List.filter_reverse,
    filter_dropWhile_absorb h, List.reverse_reverse]

theorem isspace_not_kept : ∀ a : Char, isspacePy a = true →
    (!removedChar a) = false := by
  intro a ha
  unfold removedChar
  rw [ha]
  rfl

theorem normalize_eq_normNoStrip (s : List Char) :
    normalize_token s = normNoStrip s := by
  unfold normalize_token normNoStrip
  exact filter_pyStrip_absorb isspace_not_kept

theorem normNoStrip_append (x y : List Char) :
    normNoStrip (x ++ y) = normNoStrip x ++ normNoStrip y := by
  unfold normNoStrip strip_accents
  rw [List.flatMap_append, List.filter_append, List.map_append, List.filter_append]

theorem ws_char_props : ∀ c : Char, isspacePy c = true →
    nfkd c = [c] ∧ combiningChar c = false ∧ toLowerPy c = c ∧ removedChar c = true := by
  intro c hc
  unfold isspacePy at hc
  have hmem : c ∈ wsChars := by simpa using hc
  revert hmem
  have hall : ∀ c ∈ wsChars,
      nfkd c = [c] ∧ combiningChar c = false ∧ toLowerPy c = c ∧ removedChar c = true := by
    decide
  exact hall c

theorem normNoStrip_ws_nil {l : List Char} (h : ∀ c ∈ l, isspacePy c = true) :
    normNoStrip l = [] := by
  unfold normNoStrip
  have hsa : strip_accents l = l := by
    unfold strip_accents
    rw [flatMap_nfkd_id (fun c hc => (ws_char_props c (h c hc)).1)]
    exact List.filter_eq_self.mpr
      (fun c hc => by simp [(ws_char_props c (h c hc)).2.1])
  rw [hsa, map_id_of_fixed (fun c hc => (ws_char_props c (h c hc)).2.2.1)]
  exact List.filter_eq_nil_iff.mpr
    (fun c hc => by simp [(ws_char_props c (h c hc)).2.2.2])

/-- Stripping outer whitespace before normalizing does not change the
normalized form (all whitespace is deleted by `normalize_token` anyway). -/
theorem normalize_token_pyStrip (s : List Char) :
    normalize_token (pyStrip s) = normalize_token s := by
  rw [normalize_eq_normNoStrip, normalize_eq_normNoStrip]
  unfold pyStrip
  set t := s.dropWhile isspacePy with ht
  have hs : s.takeWhile isspacePy ++ t = s := List.takeWhile_append_dropWhile _ _
  have ht2 : t.reverse.takeWhile isspacePy ++ t.reverse.dropWhile isspacePy = t.reverse :=
    List.takeWhile_append_dropWhile _ _
  have htr : t = (t.reverse.dropWhile isspacePy).reverse ++
      (t.reverse.takeWhile isspacePy).reverse := by
    have hcongr := congrArg List.reverse ht2
    rw [List.reverse_append, List.reverse_reverse] at hcongr
    exact hcongr.symm
  have h1 : normNoStrip s = normNoStrip (s.takeWhile isspacePy) ++ normNoStrip t := by
    rw [← normNoStrip_append, hs]
  have h2 : normNoStrip t = normNoStrip ((t.reverse.dropWhile isspacePy).reverse) ++
      normNoStrip ((t.reverse.takeWhile isspacePy).reverse) := by
    conv_lhs => rw [htr]
    rw [normNoStrip_append]
  rw [h1, h2, normNoStrip_ws_nil (fun c hc => List.mem_takeWhile_imp hc),
    normNoStrip_ws_nil (fun c hc => List.mem_takeWhile_imp (List.mem_reverse.mp hc))]
  simp

/-! Embedding of `difflib.SequenceMatcher(None, a, b)` as used by
`similarity_pct`.  `junk` is `None`, so the junk set is empty; `autojunk`
is on, so characters of `b` that appear more than `len(b)//100 + 1` times
are dropped from the position index `b2j` when `len(b) >= 200`.  The
while-loops of `find_longest_match` and the recursion of
`get_matching_blocks` are written with explicit fuel; the fuel arguments
(`bi` decrements, `ahi - (bi+bs)` for the forward loop, window sizes for
the recursion) are upper bounds on the number of iterations actually
performed, so the fuel never runs out. -/

/-- Character of `l` at index `i` (indices are always in range here). -/
def chAt (l : List Char) (i : Nat) : Char := l.getD i ' '

/-- Ascending list of positions of character `c` in `b`. -/
def positions (b : List Char) (c : Char) : List Nat :=
  (List.range b.length).filter (fun j => chAt b j = c)

/-- The autojunk test of `SequenceMatcher.__chain_b`. -/
def popularB (b : List Char) (c : Char) : Bool :=
  200 ≤ b.length && b.length / 100 + 1 < b.count c

/-- The position index `b2j` after popular elements are deleted. -/
def b2j (b : List Char) (c : Char) : List Nat :=
  if popularB b c then [] else positions b c

/-- `j2len.get(j, 0)` on the association list of the previous row. -/
def lookup0 (m : List (Nat × Nat)) (j : Nat) : Nat := (m.lookup j).getD 0

/-- `k = j2len.get(j-1, 0) + 1` (Python's `j-1` is `-1` when `j = 0`,
whose lookup yields the default `0`). -/
def chainVal (j2len : List (Nat × Nat)) (j : Nat) : Nat :=
  (if j = 0 then 0 else lookup0 j2len (j - 1)) + 1

/-- One row's `newj2len` dictionary. -/
def rowEntries (j2len : List (Nat × Nat)) (js : List Nat) : List (Nat × Nat) :=
  js.map (fun j => (j, chainVal j2len j))

/-- A single best-match update (`if k > bestsize: besti, bestj, bestsize
= i-k+1, j-k+1, k`). -/
def bestStep (i : Nat) (j2len : List (Nat × Nat)) (bst : Nat × Nat × Nat)
    (j : Nat) : Nat × Nat × Nat :=
  if bst.2.2 < chainVal j2len j then
    (i + 1 - chainVal j2len j, j + 1 - chainVal j2len j, chainVal j2len j)
  else bst

/-- One row's best-match updates, scanning the position list in ascending
order. -/
def bestFold (i : Nat) (j2len : List (Nat × Nat)) (js : List Nat)
    (best : Nat × Nat × Nat) : Nat × Nat × Nat :=
  js.foldl (bestStep i j2len) best

/-- The main loop of `find_longest_match` over rows `alo ≤ i < ahi`. -/
def flmLoop (a : List Char) (b2jf : Char → List Nat) (blo bhi : Nat) :
    List Nat → List (Nat × Nat) × (Nat × Nat × Nat) →
    List (Nat × Nat) × (Nat × Nat × Nat)
  | [], st => st
  | i :: rest, (j2len, best) =>
    let js := (b2jf (chAt a i)).filter (fun j => decide (blo ≤ j) && decide (j < bhi))
    flmLoop a b2jf blo bhi rest (rowEntries j2len js, bestFold i j2len js best)

/-- Backward extension loop of `find_longest_match` (the junk set is
empty, so the `not isbjunk` guard always passes). -/
def extFrontGo (a b : List Char) (alo blo : Nat) :
    Nat → Nat → Nat → Nat → Nat × Nat × Nat
  | 0, bi, bj, bs => (bi, bj, bs)
  | fuel + 1, bi, bj, bs =>
    if alo < bi ∧ blo < bj ∧ chAt a (bi - 1) = chAt b (bj - 1) then
      extFrontGo a b alo blo fuel (bi - 1) (bj - 1) (bs + 1)
    else (bi, bj, bs)

/-- Forward extension loop of `find_longest_match`. -/
def extBackGo (a b : List Char) (ahi bhi : Nat) :
    Nat → Nat → Nat → Nat → Nat × Nat × Nat
  | 0, bi, bj, bs => (bi, bj, bs)
  | fuel + 1, bi, bj, bs =>
    if bi + bs < ahi ∧ bj + bs < bhi ∧ chAt a (bi + bs) = chAt b (bj + bs) then
      extBackGo a b ahi bhi fuel bi bj (bs + 1)
    else (bi, bj, bs)

/-- `SequenceMatcher.find_longest_match(alo, ahi, blo, bhi)`. -/
def find_longest_match (a b : List Char) (b2jf : Char → List Nat)
    (alo ahi blo bhi : Nat) : Nat × Nat × Nat :=
  let st := flmLoop a b2jf blo bhi (List.range' alo (ahi - alo)) ([], (alo, blo, 0))
  let fr := extFrontGo a b alo blo st.2.1 st.2.1 st.2.2.1 st.2.2.2
  extBackGo a b ahi bhi (ahi - (fr.1 + fr.2.2)) fr.1 fr.2.1 fr.2.2

/-- Total size of all matching blocks found by the recursive splitting of
`get_matching_blocks` (the sum that `ratio` divides by the total length). -/
def matchGo (a b : List Char) (b2jf : Char → List Nat) :
    Nat → Nat → Nat → Nat → Nat → Nat
  | 0, _, _, _, _ => 0
  | fuel + 1, alo, ahi, blo, bhi =>
    let m := find_longest_match a b b2jf alo ahi blo bhi
    if m.2.2 = 0 then 0
    else m.2.2 + matchGo a b b2jf fuel alo m.1 blo m.2.1 +
      matchGo a b b2jf fuel (m.1 + m.2.2) ahi (m.2.1 + m.2.2) bhi

/-- Total number of matched characters between `a` and `b`. -/
def matchTotal (a b : List Char) : Nat :=
  matchGo a b (b2j b) (a.length + b.length + 1) 0 a.length 0 b.length

/-- `SequenceMatcher.ratio()` as an exact rational (`2*M/T`, and `1.0`
for two empty sequences). -/
def ratioQ (a b : List Char) : ℚ :=
  if a.length + b.length = 0 then 1
  else 2 * (matchTotal a b : ℚ) / ((a.length : ℚ) + (b.length : ℚ))

/-- `similarity_pct` from `app.py`: ratio of the normalized forms, in
percent. -/
def similarity_pct (a b : List Char) : ℚ :=
  ratioQ (normalize_token a) (normalize_token b) * 100

/-- Validity of a candidate best block with respect to the window. -/
def bestOK (alo ahi blo bhi : Nat) (bst : Nat × Nat × Nat) : Prop :=
  alo ≤ bst.1 ∧ bst.1 + bst.2.2 ≤ ahi ∧ blo ≤ bst.2.1 ∧ bst.2.1 + bst.2.2 ≤ bhi

/-- Bounds carried by the `j2len` association list: keys lie in the
`b`-window and chain lengths are grounded inside both windows
(`rows` is the list of rows still to process). -/
def entOK (alo blo bhi : Nat) (rows : List Nat) (j2len : List (Nat × Nat)) : Prop :=
  ∀ p ∈ j2len, blo ≤ p.1 ∧ p.1 < bhi ∧ p.2 + blo ≤ p.1 + 1 ∧ ∀ i ∈ rows, p.2 + alo ≤ i

theorem lookup0_cases (m : List (Nat × Nat)) (j : Nat) :
    lookup0 m j = 0 ∨ (j, lookup0 m j) ∈ m := by
  unfold lookup0
  cases h : m.lookup j with
  | none => exact Or.inl rfl
  | some v => exact Or.inr (lookup_mem_of_isSome h)

theorem chainVal_bound {alo blo bhi : Nat} {rows : List Nat} {j2len : List (Nat × Nat)}
    {i j : Nat} (hent : entOK alo blo bhi rows j2len) (hi : i ∈ rows)
    (halo : alo ≤ i) (hjlo : blo ≤ j) :
    chainVal j2len j + blo ≤ j + 1 ∧ chainVal j2len j + alo ≤ i + 1 := by
  unfold chainVal
  by_cases hj : j = 0
  · subst hj
    rw [if_pos rfl]
    omega
  · rw [if_neg hj]
    rcases lookup0_cases j2len (j - 1) with h0 | hmem
    · rw [h0]
      omega
    · have := hent _ hmem
      simp only at this
      obtain ⟨h1, _, h3, h4⟩ := this
      have := h4 i hi
      omega

theorem bestFold_preserves {alo ahi blo bhi : Nat} {rows : List Nat}
    {j2len : List (Nat × Nat)} {i : Nat}
    (hent : entOK alo blo bhi rows j2len) (hi : i ∈ rows) (halo : alo ≤ i) (hihi : i < ahi) :
    ∀ (js : List Nat) (best : Nat × Nat × Nat),
      (∀ j ∈ js, blo ≤ j ∧ j < bhi) → bestOK alo ahi blo bhi best →
      bestOK alo ahi blo bhi (bestFold i j2len js best) := by
  intro js
  induction js with
  | nil => intro best _ hb; exact hb
  | cons j t ih =>
    intro best hjs hb
    unfold bestFold
    rw [List.foldl_cons]
    obtain ⟨hjlo, hjhi⟩ := hjs j (List.mem_cons_self _ _)
    obtain ⟨hc1, hc2⟩ := chainVal_bound hent hi halo hjlo
    unfold bestStep
    by_cases hlt : best.2.2 < chainVal j2len j
    · rw [if_pos hlt]
      exact ih _ (fun x hx => hjs x (List.mem_cons_of_mem _ hx))
        ⟨by omega, by simp only; omega, by simp only; omega, by simp only; omega⟩
    · rw [if_neg hlt]
      exact ih _ (fun x hx => hjs x (List.mem_cons_of_mem _ hx)) hb

theorem rowEntries_preserves {alo blo bhi : Nat} {rows : List Nat}
    {j2len : List (Nat × Nat)} {i : Nat}
    (hent : entOK alo blo bhi (i :: rows) j2len) (halo : alo ≤ i)
    (hmono : ∀ i' ∈ rows, i < i') :
    ∀ (js : List Nat), (∀ j ∈ js, blo ≤ j ∧ j < bhi) →
      entOK alo blo bhi rows (rowEntries j2len js) := by
  intro js hjs p hp
  unfold rowEntries at hp
  rw [List.mem_map] at hp
  obtain ⟨j, hj, hpj⟩ := hp
  subst hpj
  obtain ⟨hjlo, hjhi⟩ := hjs j hj
  obtain ⟨hc1, hc2⟩ := chainVal_bound hent (List.mem_cons_self _ _) halo hjlo
  refine ⟨hjlo, hjhi, hc1, ?_⟩
  intro i' hi'
  have := hmono i' hi'
  simp only
  omega

theorem flmLoop_bounds {a : List Char} {b2jf : Char → List Nat} {alo ahi blo bhi : Nat} :
    ∀ (rows : List Nat) (j2len : List (Nat × Nat)) (best : Nat × Nat × Nat),
      (∀ i ∈ rows, alo ≤ i ∧ i < ahi) → rows.Pairwise (· < ·) →
      entOK alo blo bhi rows j2len → bestOK alo ahi blo bhi best →
      bestOK alo ahi blo bhi (flmLoop a b2jf blo bhi rows (j2len, best)).2 := by
  intro rows
  induction rows with
  | nil => intro j2len best _ _ _ hb; exact hb
  | cons i rest ih =>
    intro j2len best hrange hpw hent hb
    rw [flmLoop]
    have hmono : ∀ i' ∈ rest, i < i' := (List.pairwise_cons.mp hpw).1
    have hjs : ∀ j ∈ (b2jf (chAt a i)).filter
        (fun j => decide (blo ≤ j) && decide (j < bhi)), blo ≤ j ∧ j < bhi := by
      intro j hj
      rw [List.mem_filter] at hj
      have := hj.2
      simp only [Bool.and_eq_true, decide_eq_true_eq] at this
      exact this
    obtain ⟨hlo, hhi⟩ := hrange i (List.mem_cons_self _ _)
    exact ih _ _ (fun x hx => hrange x (List.mem_cons_of_mem _ hx))
      (List.pairwise_cons.mp hpw).2
      (rowEntries_preserves hent hlo hmono _ hjs)
      (bestFold_preserves hent (List.mem_cons_self _ _) hlo hhi _ _ hjs hb)

theorem extFrontGo_bounds {a b : List Char} {alo blo ahi bhi : Nat} :
    ∀ (fuel bi bj bs : Nat), bestOK alo ahi blo bhi (bi, bj, bs) →
      bestOK alo ahi blo bhi (extFrontGo a b alo blo fuel bi bj bs) := by
  intro fuel
  induction fuel with
  | zero => intro bi bj bs hb; exact hb
  | succ fuel ih =>
    intro bi bj bs hb
    unfold bestOK at hb
    simp only at hb
    rw [extFrontGo]
    by_cases hc : alo < bi ∧ blo < bj ∧ chAt a (bi - 1) = chAt b (bj - 1)
    · rw [if_pos hc]
      obtain ⟨hc1, hc2, _⟩ := hc
      apply ih
      unfold bestOK
      simp only
      omega
    · rw [if_neg hc]
      unfold bestOK
      simp only
      omega

theorem extBackGo_bounds {a b : List Char} {alo blo ahi bhi : Nat} :
    ∀ (fuel bi bj bs : Nat), bestOK alo ahi blo bhi (bi, bj, bs) →
      bestOK alo ahi blo bhi (extBackGo a b ahi bhi fuel bi bj bs) := by
  intro fuel
  induction fuel with
  | zero => intro bi bj bs hb; exact hb
  | succ fuel ih =>
    intro bi bj bs hb
    unfold bestOK at hb
    simp only at hb
    rw [extBackGo]
    by_cases hc : bi + bs < ahi ∧ bj + bs < bhi ∧ chAt a (bi + bs) = chAt b (bj + bs)
    · rw [if_pos hc]
      obtain ⟨hc1, hc2, _⟩ := hc
      apply ih
      unfold bestOK
      simp only
      omega
    · rw [if_neg hc]
      unfold bestOK
      simp only
      omega

/-- The block returned by `find_longest_match` lies inside the window. -/
theorem flm_bounds {a b : List Char} {b2jf : Char → List Nat} {alo ahi blo bhi : Nat}
    (ha : alo ≤ ahi) (hb : blo ≤ bhi) :
    bestOK alo ahi blo bhi (find_longest_match a b b2jf alo ahi blo bhi) := by
  unfold find_longest_match
  have h1 : bestOK alo ahi blo bhi
      (flmLoop a b2jf blo bhi (List.range' alo (ahi - alo)) ([], (alo, blo, 0))).2 := by
    apply flmLoop_bounds
    · intro i hi
      rw [List.mem_range'_1] at hi
      omega
    · exact List.pairwise_lt_range' alo (ahi - alo)
    · intro p hp
      simp at hp
    · exact ⟨le_refl _, by simpa using ha, le_refl _, by simpa using hb⟩
  set st := flmLoop a b2jf blo bhi (List.range' alo (ahi - alo)) ([], (alo, blo, 0)) with hst
  have h2 : bestOK alo ahi blo bhi
      (extFrontGo a b alo blo st.2.1 st.2.1 st.2.2.1 st.2.2.2) :=
    extFrontGo_bounds _ _ _ _ h1
  set fr := extFrontGo a b alo blo st.2.1 st.2.1 st.2.2.1 st.2.2.2 with hfr
  have h3 : bestOK alo ahi blo bhi
      (extBackGo a b ahi bhi (ahi - (fr.1 + fr.2.2)) fr.1 fr.2.1 fr.2.2) :=
    extBackGo_bounds _ _ _ _ h2
  exact h3

/-- The total matched size is bounded by both window sizes. -/
theorem matchGo_le {a b : List Char} {b2jf : Char → List Nat} :
    ∀ (fuel alo ahi blo bhi : Nat), alo ≤ ahi → blo ≤ bhi →
      matchGo a b b2jf fuel alo ahi blo bhi ≤ min (ahi - alo) (bhi - blo) := by
  intro fuel
  induction fuel with
  | zero => intro alo ahi blo bhi _ _; simp [matchGo]
  | succ fuel ih =>
    intro alo ahi blo bhi ha hb
    rw [matchGo]
    by_cases hz : (find_longest_match a b b2jf alo ahi blo bhi).2.2 = 0
    · rw [if_pos hz]
      omega
    · rw [if_neg hz]
      obtain ⟨h1, h2, h3, h4⟩ := @flm_bounds a b b2jf alo ahi blo bhi ha hb
      set m := find_longest_match a b b2jf alo ahi blo bhi with hm
      have r1 := ih alo m.1 blo m.2.1 h1 h3
      have r2 := ih (m.1 + m.2.2) ahi (m.2.1 + m.2.2) bhi (by omega) (by omega)
      have r1a := le_trans r1 (Nat.min_le_left _ _)
      have r1b := le_trans r1 (Nat.min_le_right _ _)
      have r2a := le_trans r2 (Nat.min_le_left _ _)
      have r2b := le_trans r2 (Nat.min_le_right _ _)
      rw [Nat.le_min]
      constructor
      · omega
      · omega

/-! Self-similarity: `find_longest_match(a, a)` over the full windows
always returns the diagonal block `(0, 0, len a)`, because the main
loop's best block is always diagonal (an off-diagonal chain of some
length forces an equally long popular-free diagonal run at an earlier or
equal row) and the extension loops then grow a diagonal block to the full
window. -/

/-- Length of the maximal autojunk-free run of rows of `a` ending at `i`. -/
def Drun (a : List Char) : Nat → Nat
  | 0 => if popularB a (chAt a 0) then 0 else 1
  | i + 1 => if popularB a (chAt a (i + 1)) then 0 else Drun a i + 1

/-- Maximum of `Drun a` over rows `< m`. -/
def maxDrun (a : List Char) : Nat → Nat
  | 0 => 0
  | m + 1 => max (maxDrun a m) (Drun a m)

theorem Drun_le (a : List Char) : ∀ i, Drun a i ≤ i + 1 := by
  intro i
  induction i with
  | zero =>
    rw [Drun]
    split
    · omega
    · omega
  | succ m ih =>
    rw [Drun]
    split
    · omega
    · omega

theorem Drun_pop {a : List Char} {i : Nat} (h : popularB a (chAt a i) = true) :
    Drun a i = 0 := by
  cases i with
  | zero => rw [Drun, if_pos h]
  | succ m => rw [Drun, if_pos h]

theorem Drun_nonpop {a : List Char} {i : Nat} (h : popularB a (chAt a i) = false) :
    Drun a i = (if i = 0 then 0 else Drun a (i - 1)) + 1 := by
  cases i with
  | zero => rw [Drun, if_neg (by simp [h]), if_pos rfl]
  | succ m =>
    rw [Drun, if_neg (by simp [h]), if_neg (Nat.succ_ne_zero m), Nat.add_sub_cancel]

theorem maxDrun_mono (a : List Char) : ∀ {m m' : Nat}, m ≤ m' →
    maxDrun a m ≤ maxDrun a m' := by
  intro m m' h
  induction m' with
  | zero =>
    have : m = 0 := Nat.le_zero.mp h
    subst this
    exact le_refl _
  | succ k ih =>
    by_cases hm : m = k + 1
    · subst hm
      exact le_refl _
    · have : m ≤ k := by omega
      exact le_trans (ih this) (by rw [maxDrun]; exact le_max_left _ _)

theorem Drun_le_maxDrun (a : List Char) {i m : Nat} (h : i < m) :
    Drun a i ≤ maxDrun a m := by
  have h1 : i + 1 ≤ m := h
  calc Drun a i ≤ maxDrun a (i + 1) := by rw [maxDrun]; exact le_max_right _ _
    _ ≤ maxDrun a m := maxDrun_mono a h1

/-- A chain of popular-free rows ending at `j` forces a diagonal run at
least as long at `j`. -/
theorem runLemma (a : List Char) : ∀ (k j : Nat),
    (∀ t < k, t ≤ j ∧ popularB a (chAt a (j - t)) = false) →
    k ≤ Drun a j := by
  intro k
  induction k with
  | zero => intro j _; exact Nat.zero_le _
  | succ m ih =>
    intro j h
    have hj0 := h 0 (Nat.succ_pos m)
    rw [Nat.sub_zero] at hj0
    rw [Drun_nonpop hj0.2]
    by_cases hcase : j = 0
    · subst hcase
      rw [if_pos rfl]
      have : m = 0 := by
        by_contra hm
        have := h m (by omega)
        omega
      omega
    · rw [if_neg hcase]
      have hm : m ≤ Drun a (j - 1) := by
        apply ih
        intro t ht
        have := h (t + 1) (by omega)
        constructor
        · omega
        · have heq : j - (t + 1) = j - 1 - t := by omega
          rw [← heq]
          exact this.2
      omega

/-- Invariant of the main loop on `(a, a)` with full windows: the best
block is diagonal, dominates every diagonal run seen so far, ends before
the current row, and the previous row's `j2len` chains are popular-free
and bounded by the previous diagonal run. -/
def selfINV (a : List Char) (i : Nat)
    (st : List (Nat × Nat) × (Nat × Nat × Nat)) : Prop :=
  st.2.1 = st.2.2.1 ∧
  maxDrun a i ≤ st.2.2.2 ∧
  st.2.1 + st.2.2.2 ≤ i ∧
  lookup0 st.1 (i - 1) = (if i = 0 then 0 else Drun a (i - 1)) ∧
  ∀ p ∈ st.1, p.2 ≤ (if i = 0 then 0 else Drun a (i - 1)) ∧
    ∀ t < p.2, t ≤ p.1 ∧ popularB a (chAt a (p.1 - t)) = false

theorem mem_positions {b : List Char} {c : Char} {j : Nat} :
    j ∈ positions b c ↔ j < b.length ∧ chAt b j = c := by
  unfold positions
  rw [List.mem_filter, List.mem_range]
  simp

theorem positions_pairwise (b : List Char) (c : Char) :
    (positions b c).Pairwise (· < ·) :=
  List.Pairwise.filter _ (List.pairwise_lt_range b.length)

theorem b2j_self_filter (a : List Char) (c : Char) :
    (b2j a c).filter (fun j => decide (0 ≤ j) && decide (j < a.length)) = b2j a c := by
  apply List.filter_eq_self.mpr
  intro j hj
  unfold b2j at hj
  simp only [Bool.and_eq_true, decide_eq_true_eq]
  split at hj
  · simp at hj
  · exact ⟨Nat.zero_le _, (mem_positions.mp hj).1⟩

theorem lookup_map_self {js : List Nat} {f : Nat → Nat} {j : Nat}
    (hnd : js.Nodup) (hj : j ∈ js) :
    (js.map (fun x => (x, f x))).lookup j = some (f j) := by
  induction js with
  | nil => simp at hj
  | cons x t ih =>
    rw [List.map_cons, List.lookup_cons]
    by_cases hx : j = x
    · subst hx
      simp
    · have hbe : (j == x) = false := by simp [hx]
      rw [hbe]
      exact ih (List.Nodup.of_cons hnd) (by
        rcases List.mem_cons.mp hj with h | h
        · exact absurd h hx
        · exact h)

theorem bestFold_no_update {i : Nat} {j2len : List (Nat × Nat)} :
    ∀ (js : List Nat) (best : Nat × Nat × Nat),
      (∀ j ∈ js, chainVal j2len j ≤ best.2.2) →
      bestFold i j2len js best = best := by
  intro js
  induction js with
  | nil => intro best _; rfl
  | cons j t ih =>
    intro best h
    unfold bestFold
    rw [List.foldl_cons]
    have hs : bestStep i j2len best j = best := by
      unfold bestStep
      rw [if_neg (by have := h j (List.mem_cons_self _ _); omega)]
    rw [hs]
    exact ih best (fun x hx => h x (List.mem_cons_of_mem _ hx))

theorem bestFold_split {i : Nat} {j2len : List (Nat × Nat)}
    (l₁ l₂ : List Nat) (j : Nat) (best : Nat × Nat × Nat) :
    bestFold i j2len (l₁ ++ j :: l₂) best =
      bestFold i j2len l₂ (bestStep i j2len (bestFold i j2len l₁ best) j) := by
  unfold bestFold
  rw [List.foldl_append, List.foldl_cons]

/-- One row of the main loop on `(a, a)` preserves the diagonal invariant. -/
theorem selfStep {a : List Char} {i : Nat} {j2len : List (Nat × Nat)}
    {best : Nat × Nat × Nat}
    (hinv : selfINV a i (j2len, best)) (hi : i < a.length) :
    selfINV a (i + 1)
      (rowEntries j2len (b2j a (chAt a i)),
       bestFold i j2len (b2j a (chAt a i)) best) := by
  obtain ⟨h1, h2, h3, h4, h5⟩ := hinv
  simp only at h1 h2 h3 h4 h5
  by_cases hpop : popularB a (chAt a i) = true
  · have hjs : b2j a (chAt a i) = [] := by unfold b2j; rw [if_pos hpop]
    rw [hjs]
    have hre : rowEntries j2len [] = [] := rfl
    have hbf : bestFold i j2len [] best = best := rfl
    rw [hre, hbf]
    refine ⟨h1, ?_, by simp only; omega, ?_, by simp⟩
    · simp only
      rw [maxDrun, Drun_pop hpop]
      simpa using h2
    · simp only [Nat.add_sub_cancel, lookup0, List.lookup_nil, Option.getD_none]
      rw [Drun_pop hpop]
      simp
  · have hpop' : popularB a (chAt a i) = false := by
      cases h : popularB a (chAt a i)
      · rfl
      · exact absurd h hpop
    have hjs : b2j a (chAt a i) = positions a (chAt a i) := by
      unfold b2j; rw [if_neg (by rw [hpop']; exact Bool.false_ne_true)]
    have hDi : Drun a i = (if i = 0 then 0 else Drun a (i - 1)) + 1 := Drun_nonpop hpop'
    -- chain bounds for the values computed in this row
    have f1 : ∀ j ∈ positions a (chAt a i), chainVal j2len j ≤ Drun a i := by
      intro j _
      rw [hDi]
      unfold chainVal
      by_cases hj : j = 0
      · rw [if_pos hj]; omega
      · rw [if_neg hj]
        rcases lookup0_cases j2len (j - 1) with h0 | hmem
        · rw [h0]; omega
        · have := (h5 _ hmem).1
          omega
    have f2 : ∀ j ∈ positions a (chAt a i), ∀ t < chainVal j2len j,
        t ≤ j ∧ popularB a (chAt a (j - t)) = false := by
      intro j hj t ht
      cases t with
      | zero =>
        refine ⟨Nat.zero_le _, ?_⟩
        rw [Nat.sub_zero, (mem_positions.mp hj).2]
        exact hpop'
      | succ t' =>
        unfold chainVal at ht
        by_cases hj0 : j = 0
        · rw [if_pos hj0] at ht; omega
        · rw [if_neg hj0] at ht
          rcases lookup0_cases j2len (j - 1) with h0 | hmem
          · rw [h0] at ht; omega
          · have hch := (h5 _ hmem).2 t' (by omega)
            simp only at hch
            refine ⟨by omega, ?_⟩
            have heq : j - (t' + 1) = j - 1 - t' := by omega
            rw [heq]
            exact hch.2
    have hself : i ∈ positions a (chAt a i) := mem_positions.mpr ⟨hi, rfl⟩
    have f3 : chainVal j2len i = Drun a i := by
      rw [hDi]
      unfold chainVal
      by_cases hi0 : i = 0
      · rw [if_pos hi0, if_pos hi0]
      · rw [if_neg hi0, if_neg hi0, h4]
        rw [if_neg hi0]
    have hpwjs : (positions a (chAt a i)).Pairwise (· < ·) := positions_pairwise a _
    have hndjs : (positions a (chAt a i)).Nodup :=
      hpwjs.imp (fun h => Nat.ne_of_lt h)
    -- split the position list around the diagonal position i
    obtain ⟨lows, highs, hsplit⟩ := List.append_of_mem hself
    have hpw2 : (lows ++ i :: highs).Pairwise (· < ·) := by rw [← hsplit]; exact hpwjs
    have hlow : ∀ x ∈ lows, x < i := by
      intro x hx
      exact (List.pairwise_append.mp hpw2).2.2 x hx i (List.mem_cons_self _ _)
    have hhigh : ∀ x ∈ highs, i < x :=
      (List.pairwise_cons.mp (List.pairwise_append.mp hpw2).2.1).1
    -- the fold does not move before the diagonal position
    have hfold1 : bestFold i j2len lows best = best := by
      apply bestFold_no_update
      intro j hjl
      have hjmem : j ∈ positions a (chAt a i) := by
        rw [hsplit]; exact List.mem_append.mpr (Or.inl hjl)
      have hk := runLemma a (chainVal j2len j) j (fun t ht => f2 j hjmem t ht)
      calc chainVal j2len j ≤ Drun a j := hk
        _ ≤ maxDrun a i := Drun_le_maxDrun a (hlow j hjl)
        _ ≤ best.2.2 := h2
    set mid := bestStep i j2len best i with hmid
    have hmid1 : mid.1 = mid.2.1 ∧ Drun a i ≤ mid.2.2 ∧ maxDrun a i ≤ mid.2.2 ∧
        mid.1 + mid.2.2 ≤ i + 1 := by
      rw [hmid]
      unfold bestStep
      rw [f3]
      by_cases hlt : best.2.2 < Drun a i
      · rw [if_pos hlt]
        have hle := Drun_le a i
        refine ⟨rfl, by simp only; omega, by simp only; omega, by simp only; omega⟩
      · rw [if_neg hlt]
        exact ⟨h1, by omega, h2, by omega⟩
    have hfold3 : bestFold i j2len highs mid = mid := by
      apply bestFold_no_update
      intro j hjh
      have hjmem : j ∈ positions a (chAt a i) := by
        rw [hsplit]
        exact List.mem_append.mpr (Or.inr (List.mem_cons_of_mem _ hjh))
      exact le_trans (f1 j hjmem) hmid1.2.1
    have hbest : bestFold i j2len (b2j a (chAt a i)) best = mid := by
      rw [hjs, hsplit, bestFold_split, hfold1, hfold3]
    rw [hbest, hjs]
    -- assemble the invariant at i + 1
    refine ⟨hmid1.1, ?_, hmid1.2.2.2, ?_, ?_⟩
    · simp only
      rw [maxDrun]
      exact max_le hmid1.2.2.1 hmid1.2.1
    · simp only [Nat.add_sub_cancel]
      unfold rowEntries lookup0
      rw [lookup_map_self hndjs hself]
      simpa using f3
    · intro p hp
      unfold rowEntries at hp
      rw [List.mem_map] at hp
      obtain ⟨j, hjmem, hpj⟩ := hp
      subst hpj
      rw [if_neg (Nat.succ_ne_zero i), Nat.add_sub_cancel]
      exact ⟨f1 j hjmem, f2 j hjmem⟩

theorem flmLoop_self (a : List Char) :
    ∀ (cnt i : Nat) (st : List (Nat × Nat) × (Nat × Nat × Nat)),
      i + cnt = a.length → selfINV a i st →
      selfINV a a.length (flmLoop a (b2j a) 0 a.length (List.range' i cnt) st) := by
  intro cnt
  induction cnt with
  | zero =>
    intro i st h hinv
    have hieq : i = a.length := by omega
    subst hieq
    exact hinv
  | succ m ih =>
    intro i st h hinv
    obtain ⟨j2len, best⟩ := st
    rw [List.range'_succ, flmLoop]
    simp only [b2j_self_filter]
    exact ih (i + 1) _ (by omega) (selfStep hinv (by omega))

theorem extFront_self (a : List Char) :
    ∀ (fuel bi bs : Nat), bi ≤ fuel →
      extFrontGo a a 0 0 fuel bi bi bs = (0, 0, bs + bi) := by
  intro fuel
  induction fuel with
  | zero =>
    intro bi bs h
    have : bi = 0 := by omega
    subst this
    rfl
  | succ m ih =>
    intro bi bs h
    cases bi with
    | zero =>
      rw [extFrontGo, if_neg (by rintro ⟨hlt, -, -⟩; omega)]
      rfl
    | succ k =>
      rw [extFrontGo, if_pos ⟨Nat.succ_pos k, Nat.succ_pos k, rfl⟩]
      have hrec := ih k (bs + 1) (by omega)
      rw [show k + 1 - 1 = k from rfl, hrec]
      have : bs + 1 + k = bs + (k + 1) := by omega
      rw [this]

theorem extBack_self (a : List Char) :
    ∀ (fuel s : Nat), a.length ≤ s + fuel → s ≤ a.length →
      extBackGo a a a.length a.length fuel 0 0 s = (0, 0, a.length) := by
  intro fuel
  induction fuel with
  | zero =>
    intro s h1 h2
    have : s = a.length := by omega
    subst this
    rfl
  | succ m ih =>
    intro s h1 h2
    by_cases hs : s < a.length
    · rw [extBackGo, if_pos ⟨by omega, by omega, rfl⟩]
      exact ih (s + 1) (by omega) (by omega)
    · have hseq : s = a.length := by omega
      subst hseq
      rw [extBackGo, if_neg (by rintro ⟨hlt, -, -⟩; omega)]

/-- `find_longest_match(a, a)` over the whole sequences returns the full
diagonal block. -/
theorem flm_self (a : List Char) :
    find_longest_match a a (b2j a) 0 a.length 0 a.length = (0, 0, a.length) := by
  have h0 : selfINV a 0 ([], (0, 0, 0)) := by
    refine ⟨rfl, ?_, ?_, ?_, ?_⟩
    · simp [maxDrun]
    · simp
    · simp [lookup0]
    · intro p hp
      simp at hp
  have hloop := flmLoop_self a a.length 0 ([], (0, 0, 0)) (by omega) h0
  obtain ⟨hd, hmax, hsum, -, -⟩ := hloop
  set q := flmLoop a (b2j a) 0 a.length (List.range' 0 a.length) ([], (0, 0, 0)) with hq
  show extBackGo a a a.length a.length
      (a.length - ((extFrontGo a a 0 0 q.2.1 q.2.1 q.2.2.1 q.2.2.2).1 +
        (extFrontGo a a 0 0 q.2.1 q.2.1 q.2.2.1 q.2.2.2).2.2))
      (extFrontGo a a 0 0 q.2.1 q.2.1 q.2.2.1 q.2.2.2).1
      (extFrontGo a a 0 0 q.2.1 q.2.1 q.2.2.1 q.2.2.2).2.1
      (extFrontGo a a 0 0 q.2.1 q.2.1 q.2.2.1 q.2.2.2).2.2 = (0, 0, a.length)
  rw [← hd, extFront_self a q.2.1 q.2.1 q.2.2.2 (le_refl _)]
  show extBackGo a a a.length a.length
    (a.length - (0 + (q.2.2.2 + q.2.1))) 0 0 (q.2.2.2 + q.2.1) = (0, 0, a.length)
  rw [Nat.zero_add]
  exact extBack_self a _ _ (by omega) (by omega)

theorem matchGo_empty_a {a b : List Char} {f : Char → List Nat}
    (fuel alo blo bhi : Nat) (h : blo ≤ bhi) :
    matchGo a b f fuel alo alo blo bhi = 0 := by
  cases fuel with
  | zero => rfl
  | succ m =>
    rw [matchGo]
    obtain ⟨h1, h2, h3, h4⟩ := @flm_bounds a b f alo alo blo bhi (le_refl alo) h
    rw [if_pos (by omega)]

/-- The total matched size between `a` and itself is the whole length. -/
theorem matchTotal_self (a : List Char) : matchTotal a a = a.length := by
  unfold matchTotal
  rw [matchGo, flm_self]
  show (if a.length = 0 then 0
    else a.length + matchGo a a (b2j a) (a.length + a.length) 0 0 0 0 +
      matchGo a a (b2j a) (a.length + a.length) (0 + a.length) a.length
        (0 + a.length) a.length) = a.length
  rw [Nat.zero_add]
  by_cases hn : a.length = 0
  · rw [if_pos hn, hn]
  · rw [if_neg hn, matchGo_empty_a _ _ _ _ (le_refl 0),
      matchGo_empty_a _ _ _ _ (le_refl a.length)]
    omega

theorem ratioQ_self (a : List Char) : ratioQ a a = 1 := by
  unfold ratioQ
  by_cases hn : a.length + a.length = 0
  · rw [if_pos hn]
  · rw [if_neg hn, matchTotal_self]
    have hl : 0 < a.length := by omega
    have hq : (0 : ℚ) < (a.length : ℚ) := by exact_mod_cast hl
    have h0 : (a.length : ℚ) + (a.length : ℚ) ≠ 0 := by linarith
    rw [div_eq_one_iff_eq h0]
    ring

theorem matchTotal_twice_le (a b : List Char) :
    2 * matchTotal a b ≤ a.length + b.length := by
  have h := @matchGo_le a b (b2j b)
    (a.length + b.length + 1) 0 a.length 0 b.length (Nat.zero_le _) (Nat.zero_le _)
  have h1 := le_trans h (Nat.min_le_left _ _)
  have h2 := le_trans h (Nat.min_le_right _ _)
  unfold matchTotal
  omega

theorem ratioQ_nonneg (a b : List Char) : 0 ≤ ratioQ a b := by
  unfold ratioQ
  split
  · norm_num
  · apply div_nonneg
    · positivity
    · positivity

theorem ratioQ_le_one (a b : List Char) : ratioQ a b ≤ 1 := by
  unfold ratioQ
  split
  · exact le_refl 1
  · rename_i hne
    have hpos : (0 : ℚ) < (a.length : ℚ) + (b.length : ℚ) := by
      have : 0 < a.length + b.length := Nat.pos_of_ne_zero hne
      exact_mod_cast this
    rw [div_le_one hpos]
    have := matchTotal_twice_le a b
    exact_mod_cast this

/-- `similarity_pct` always lies in `[0, 100]`. -/
theorem similarity_pct_range (a b : List Char) :
    0 ≤ similarity_pct a b ∧ similarity_pct a b ≤ 100 := by
  unfold similarity_pct
  constructor
  · have := ratioQ_nonneg (normalize_token a) (normalize_token b)
    nlinarith
  · have := ratioQ_le_one (normalize_token a) (normalize_token b)
    nlinarith

/-- `similarity_pct a a = 100` for every string `a`. -/
theorem similarity_pct_self (a : List Char) : similarity_pct a a = 100 := by
  unfold similarity_pct
  rw [ratioQ_self]
  norm_num

/-- `similarity_pct` only depends on the normalized forms. -/
theorem similarity_pct_normalized (a b : List Char) :
    similarity_pct a b = similarity_pct (normalize_token a) (normalize_token b) := by
  unfold similarity_pct
  rw [normalize_token_idem, normalize_token_idem]

/-! Spelling verdict and answer grading (the Submit handler's verdict
branch in `app.py`). -/

/-- `spelling_verdict` from `app.py`. -/
def spelling_verdict (user target : List Char) (threshold : ℚ) : String :=
  if normalize_token user = normalize_token target then "exact"
  else if threshold ≤ similarity_pct user target then "near"
  else "wrong"

/-- Grading of a spelling submission: `user = typed.strip()`, then either
the fuzzy verdict or a plain normalized comparison.  Returns
`(is_correct, feedback_mode)`. -/
def grade_spelling (enableFuzzy : Bool) (threshold : ℚ) (countNear : Bool)
    (typed target : String) : Bool × String :=
  let user := pyStrip typed.data
  if enableFuzzy then
    let v := spelling_verdict user target.data threshold
    if v = "exact" then (true, "exact")
    else if v = "near" then (countNear, "near")
    else (false, "wrong")
  else
    if normalize_token user = normalize_token target.data then (true, "exact")
    else (false, "wrong")

/-! Option selector (`pick_options`).  The two calls into `random`
(`random.sample` and `random.shuffle`) are modelled as function
parameters; their contracts are hypotheses of the theorems. -/

/-- `pick_options` from `app.py`.  `none` models a raised `ValueError`
(`list.remove` with an absent element, or `random.sample` with a negative
sample size when `k = 0`). -/
def pick_options (nTotal correctIdx k : Nat)
    (sample : List Nat → Nat → List Nat) (shuffle : List Nat → List Nat) :
    Option (List Nat) :=
  if nTotal ≤ 1 then some [correctIdx]
  else
    let k2 := min k nTotal
    if correctIdx < nTotal then
      if 1 ≤ k2 then
        some (shuffle (correctIdx ::
          sample ((List.range nTotal).erase correctIdx) (k2 - 1)))
      else none
    else none

/-! Mastery ledger, wrong book and spaced-repetition queue. -/

/-- Per-word mastery counters. -/
structure MRec where
  seen : Nat
  correct : Nat
  wrong : Nat
deriving DecidableEq

/-- The in-place `seen/correct/wrong` increments of `update_mastery`. -/
def bumpMastery (r : MRec) (ok : Bool) : MRec :=
  { seen := r.seen + 1,
    correct := r.correct + (if ok then 1 else 0),
    wrong := r.wrong + (if ok then 0 else 1) }

/-- `update_mastery` from `app.py`: `setdefault` (insert a zero record at
the end when the word is new) followed by the increments. -/
def update_mastery (m : List (String × MRec)) (w : String) (ok : Bool) :
    List (String × MRec) :=
  if (m.lookup w).isSome then
    m.map (fun p => if p.1 = w then (p.1, bumpMastery p.2 ok) else p)
  else m ++ [(w, bumpMastery ⟨0, 0, 0⟩ ok)]

/-- A wrong-book entry (`word`, `definition`, optional example). -/
structure WrongEntry where
  word : String
  defn : String
  ex : Option String
deriving DecidableEq

/-- `add_to_wrong_book` from `app.py`: no-op when a (word, definition)
match exists, else append. -/
def add_to_wrong_book (wb : List WrongEntry) (w d : String) (e : Option String) :
    List WrongEntry :=
  if wb.any (fun r => r.word == w && r.defn == d) then wb
  else wb ++ [⟨w, d, e⟩]

/-- `remove_from_wrong_book` from `app.py`. -/
def remove_from_wrong_book (wb : List WrongEntry) (w d : String) : List WrongEntry :=
  wb.filter (fun r => !(r.word == w && r.defn == d))

/-- A spaced-repetition queue item (`{"idx": ..., "due": ...}`). -/
structure SRItem where
  idx : Nat
  due : Nat
deriving DecidableEq

/-- `schedule_spaced_repetition` from `app.py`. -/
def schedule_spaced_repetition (q : List SRItem) (idx : Nat) (delay : Nat) :
    List SRItem :=
  q ++ [⟨idx, delay⟩]

/-- `max(0, due - 1)` on one item (truncated subtraction). -/
def decSR (it : SRItem) : SRItem := ⟨it.idx, it.due - 1⟩

/-- `sr_tick_and_pick` from `app.py`: decrement every `due`; if an item is
due, pick the first one and remove every due item carrying that index. -/
def sr_tick_and_pick (q : List SRItem) : List SRItem × Option Nat :=
  match (q.map decSR).filter (fun it => it.due == 0) with
  | [] => (q.map decSR, none)
  | chosen :: _ =>
    ((q.map decSR).filter (fun it => !(it.due == 0 && it.idx == chosen.idx)),
      some chosen.idx)

/-! The Submit button handler (state updates after grading). -/

/-- Session counters (`st.session_state.stats`). -/
structure Stats where
  xp : Nat
  correct : Nat
  total : Nat
  streak : Nat
deriving DecidableEq

/-- The two practice modes of the sidebar radio button. -/
inductive PracticeMode where
  | normal
  | reviewWrongBook
deriving DecidableEq

/-- The session state touched by the Submit handler. -/
structure SessionState where
  stats : Stats
  wrong_book : List WrongEntry
  mastery : List (String × MRec)
  sr_queue : List SRItem
  exam_active : Bool
  exam_correct : Nat
deriving DecidableEq

/-- The Submit handler of `app.py` (b1 block) after the verdict has been
computed: bump `total`, record mastery, then the correct/incorrect
branches (wrong-book, SR scheduling, exam score). -/
def submit_update (st : SessionState) (mode : PracticeMode) (isCorrect : Bool)
    (word defn : String) (ex : Option String) (correctIdx : Nat) : SessionState :=
  let st1 := { st with stats := { st.stats with total := st.stats.total + 1 } }
  let st2 := { st1 with mastery := update_mastery st1.mastery word isCorrect }
  let st3 :=
    if isCorrect then
      let stc := { st2 with stats := { st2.stats with
        xp := st2.stats.xp + 1, correct := st2.stats.correct + 1,
        streak := st2.stats.streak + 1 } }
      match mode with
      | PracticeMode.reviewWrongBook =>
        { stc with wrong_book := remove_from_wrong_book stc.wrong_book word defn }
      | PracticeMode.normal => stc
    else
      let stw := { st2 with stats := { st2.stats with streak := 0 } }
      let stw2 := match mode with
        | PracticeMode.normal =>
          { stw with wrong_book := add_to_wrong_book stw.wrong_book word defn ex }
        | PracticeMode.reviewWrongBook => stw
      { stw2 with sr_queue := schedule_spaced_repetition stw2.sr_queue correctIdx 3 }
  if st3.exam_active && isCorrect then
    { st3 with exam_correct := st3.exam_correct + 1 }
  else st3

/-- A full spelling submission: grade the typed text, then apply the
state updates. -/
def submit_spelling (st : SessionState) (mode : PracticeMode)
    (enableFuzzy : Bool) (threshold : ℚ) (countNear : Bool)
    (typed word defn : String) (ex : Option String) (correctIdx : Nat) :
    SessionState :=
  submit_update st mode (grade_spelling enableFuzzy threshold countNear typed word).1
    word defn ex correctIdx

/-! Progress import (the `uploaded_progress` block). -/

/-- JSON values as produced by `json.loads`. -/
inductive JVal where
  | null
  | jbool (b : Bool)
  | jnum (q : ℚ)
  | jstr (s : String)
  | jarr (xs : List JVal)
  | jobj (kvs : List (String × JVal))

/-- Key lookup in a JSON object (`json.loads` keeps the last duplicate). -/
def pyLookup (kvs : List (String × JVal)) (k : String) : Option JVal :=
  kvs.reverse.lookup k

/-- Python's substring test `pat in s`. -/
def containsSub (pat s : List Char) : Bool :=
  (List.range (s.length + 1)).any (fun i => ((s.drop i).take pat.length) == pat)

/-- Python's `x in xs` element test against a string, on JSON lists. -/
def jstrElem (xs : List JVal) (s : String) : Bool :=
  xs.any (fun v => match v with | JVal.jstr t => t == s | _ => false)

/-- The `uploaded_progress` import block: everything runs inside
`try/except`, the only state writes are the two guarded assignments, and
any exception leaves both fields untouched.  `parsed = none` models a
`json.loads` failure; the Bool result is the error flag (`st.error`
shown instead of `st.success`). -/
def import_progress (parsed : Option JVal) (m0 wb0 : JVal) : JVal × JVal × Bool :=
  match parsed with
  | none => (m0, wb0, true)
  | some (JVal.jobj kvs) =>
    let m1 := match pyLookup kvs "mastery" with
      | some (JVal.jobj mv) => JVal.jobj mv
      | _ => m0
    let wb1 := match pyLookup kvs "wrong_book" with
      | some (JVal.jarr wv) => JVal.jarr wv
      | _ => wb0
    (m1, wb1, false)
  | some (JVal.jarr xs) =>
    if jstrElem xs "mastery" then (m0, wb0, true)
    else if jstrElem xs "wrong_book" then (m0, wb0, true)
    else (m0, wb0, false)
  | some (JVal.jstr s) =>
    if containsSub ("mastery".data) s.data then (m0, wb0, true)
    else if containsSub ("wrong_book".data) s.data then (m0, wb0, true)
    else (m0, wb0, false)
  | some _ => (m0, wb0, true)

/-! Mastery CSV export (the `export_csv_btn` block). -/

/-- Round-half-even of `num / den` (the rounding of `"{:.0f}".format`),
on nonnegative rationals given as numerator and denominator. -/
def roundHalfEven (num den : Nat) : Nat :=
  let q := num / den
  let r := num % den
  if 2 * r < den then q
  else if den < 2 * r then q + 1
  else if q % 2 = 0 then q else q + 1

/-- The `accuracy_%` column: `f"{correct/seen*100:.0f}"`, and the integer
`0` when `seen = 0`; in both cases a decimal string. -/
def accuracy_str (seen correct : Nat) : String :=
  if 0 < seen then Nat.repr (roundHalfEven (100 * correct) seen) else "0"

/-- One exported row. -/
structure CsvRow where
  word : String
  seen : Nat
  correct : Nat
  wrong : Nat
  accuracy : String
deriving DecidableEq

/-- Row built from one mastery entry. -/
def masteryRow (w : String) (r : MRec) : CsvRow :=
  ⟨w, r.seen, r.correct, r.wrong, accuracy_str r.seen r.correct⟩

/-- The unsorted row list (one row per mastery entry, in map order). -/
def csvRows (m : List (String × MRec)) : List CsvRow :=
  m.map (fun p => masteryRow p.1 p.2)

/-- Python string comparison (code-point lexicographic), as pandas
applies it to the object-dtype accuracy column. -/
def strLtB : List Char → List Char → Bool
  | [], [] => false
  | [], _ :: _ => true
  | _ :: _, [] => false
  | c :: cs, d :: ds => if c < d then true else if d < c then false else strLtB cs ds

theorem strLtB_trans : ∀ {a b c : List Char},
    strLtB a b = true → strLtB b c = true → strLtB a c = true := by
  intro a
  induction a with
  | nil =>
    intro b c hab hbc
    cases b with
    | nil => simp [strLtB] at hab
    | cons y ys =>
      cases c with
      | nil => simp [strLtB] at hbc
      | cons z zs => rfl
  | cons x xs ih =>
    intro b c hab hbc
    cases b with
    | nil => simp [strLtB] at hab
    | cons y ys =>
      cases c with
      | nil => simp [strLtB] at hbc
      | cons z zs =>
        rw [strLtB] at hab hbc ⊢
        by_cases hxy : x < y
        · rw [if_pos hxy] at hab
          by_cases hyz : y < z
          · rw [if_pos (lt_trans hxy hyz)]
          · rw [if_neg hyz] at hbc
            by_cases hzy : z < y
            · rw [if_pos hzy] at hbc
              exact absurd hbc (by simp)
            · have heq : y = z := le_antisymm (not_lt.mp hzy) (not_lt.mp hyz)
              rw [if_pos (heq ▸ hxy)]
        · rw [if_neg hxy] at hab
          by_cases hyx : y < x
          · rw [if_pos hyx] at hab
            exact absurd hab (by simp)
          · rw [if_neg hyx] at hab
            have heq : x = y := le_antisymm (not_lt.mp hyx) (not_lt.mp hxy)
            subst heq
            by_cases hyz : x < z
            · rw [if_pos hyz]
            · rw [if_neg hyz] at hbc ⊢
              by_cases hzy : z < x
              · rw [if_pos hzy] at hbc
                exact absurd hbc (by simp)
              · rw [if_neg hzy] at hbc ⊢
                exact ih hab hbc

theorem strLtB_false_eq : ∀ {a b : List Char},
    strLtB a b = false → strLtB b a = false → a = b := by
  intro a
  induction a with
  | nil =>
    intro b h1 h2
    cases b with
    | nil => rfl
    | cons y ys => simp [strLtB] at h1
  | cons x xs ih =>
    intro b h1 h2
    cases b with
    | nil => simp [strLtB] at h2
    | cons y ys =>
      rw [strLtB] at h1 h2
      by_cases hxy : x < y
      · rw [if_pos hxy] at h1
        exact absurd h1 (by simp)
      · by_cases hyx : y < x
        · rw [if_pos hyx] at h2
          exact absurd h2 (by simp)
        · have heq : x = y := le_antisymm (not_lt.mp hyx) (not_lt.mp hxy)
          subst heq
          rw [if_neg hxy, if_neg hxy] at h1 h2
          rw [ih h1 h2]

/-- The sort key order used by
`sort_values(by=["accuracy_%","seen"], ascending=[False, False])`:
descending by the accuracy **string** (pandas compares the object column
lexicographically), ties broken by descending `seen`. -/
def rowGE (r1 r2 : CsvRow) : Prop :=
  strLtB r2.accuracy.data r1.accuracy.data = true ∨
    (r1.accuracy = r2.accuracy ∧ r2.seen ≤ r1.seen)

instance rowGE_dec : DecidableRel rowGE := fun r1 r2 => by
  unfold rowGE
  infer_instance

theorem string_data_eq {s t : String} (h : s.data = t.data) : s = t := by
  cases s
  cases t
  exact congrArg String.mk h

instance rowGE_total : IsTotal CsvRow rowGE := by
  constructor
  intro r1 r2
  unfold rowGE
  cases h1 : strLtB r2.accuracy.data r1.accuracy.data
  · cases h2 : strLtB r1.accuracy.data r2.accuracy.data
    · have heq : r1.accuracy = r2.accuracy := string_data_eq (strLtB_false_eq h2 h1)
      rcases Nat.le_total r2.seen r1.seen with hs | hs
      · exact Or.inl (Or.inr ⟨heq, hs⟩)
      · exact Or.inr (Or.inr ⟨heq.symm, hs⟩)
    · exact Or.inr (Or.inl rfl)
  · exact Or.inl (Or.inl rfl)

instance rowGE_trans : IsTrans CsvRow rowGE := by
  constructor
  intro r1 r2 r3 h12 h23
  unfold rowGE at h12 h23 ⊢
  rcases h12 with h12 | ⟨he12, hs12⟩
  · rcases h23 with h23 | ⟨he23, hs23⟩
    · exact Or.inl (strLtB_trans h23 h12)
    · exact Or.inl (by rw [← he23]; exact h12)
  · rcases h23 with h23 | ⟨he23, hs23⟩
    · exact Or.inl (by rw [he12]; exact h23)
    · exact Or.inr ⟨he12.trans he23, le_trans hs23 hs12⟩

/-- The `export_csv_btn` block: build one row per mastery entry and sort
by descending accuracy string, then descending seen count
(`numpy.lexsort` under `sort_values` is stable; `insertionSort` is the
corresponding stable sort).  On an **empty** mastery map the code builds
`pd.DataFrame([])`, a frame with no columns, and
`sort_values(by=["accuracy_%","seen"])` raises `KeyError`; `none` models
that raised exception. -/
def export_csv (m : List (String × MRec)) : Option (List CsvRow) :=
  match m with
  | [] => none
  | p :: t => some (List.insertionSort rowGE (csvRows (p :: t)))

/-! Claim theorems. -/

/-- C9: `normalize_token` is idempotent, and it identifies "café-like"
with "CAFE LIKE" (case-, accent-, whitespace- and hyphen-insensitive). -/
theorem claim_C9_normalize_idempotent :
    (∀ s : List Char, normalize_token (normalize_token s) = normalize_token s) ∧
    normalize_token ("café-like".data) = normalize_token ("CAFE LIKE".data) :=
  ⟨normalize_token_idem, by decide⟩

/-- C2 counterexample: `similarity_pct` is not symmetric.  On "ab" and
"bacb", `SequenceMatcher` matches 2 characters in one direction (the
block "a" and then "b" in the right remainder) but only 1 in the other
(66.7% against 33.3%), because `find_longest_match`'s tie-breaking is
position-dependent. -/
theorem claim_C2_counterexample :
    similarity_pct ("ab".data) ("bacb".data) ≠
      similarity_pct ("bacb".data) ("ab".data) := by
  have h1 : matchTotal ("ab".data) ("bacb".data) = 2 := rfl
  have h2 : matchTotal ("bacb".data) ("ab".data) = 1 := rfl
  have h3 : normalize_token ("ab".data) = "ab".data := rfl
  have h4 : normalize_token ("bacb".data) = "bacb".data := rfl
  unfold similarity_pct ratioQ
  rw [h3, h4, h1, h2]
  norm_num

/-- C2 (amended): `similarity_pct` always lies in `[0, 100]`, is computed
on the normalized forms of its inputs, and `similarity(a, a) = 100` for
every `a` (in particular every non-empty one); the symmetry half of the
claim is refuted by the counterexample. -/
theorem claim_C2_amended (a b : List Char) :
    0 ≤ similarity_pct a b ∧ similarity_pct a b ≤ 100 ∧
    similarity_pct a a = 100 ∧
    similarity_pct a b = similarity_pct (normalize_token a) (normalize_token b) :=
  ⟨(similarity_pct_range a b).1, (similarity_pct_range a b).2,
   similarity_pct_self a, similarity_pct_normalized a b⟩

/-- C10: with fuzzy matching disabled, a spelling answer is graded
correct iff the normalized typed input equals the normalized target word;
the near-miss threshold and near-as-correct flag are never consulted, and
the feedback is only ever "exact" or "wrong" (never "near"). -/
theorem claim_C10_fuzzy_disabled (typed target : String) (th1 th2 : ℚ)
    (c1 c2 : Bool) :
    grade_spelling false th1 c1 typed target =
      grade_spelling false th2 c2 typed target ∧
    ((grade_spelling false th1 c1 typed target).1 = true ↔
      normalize_token typed.data = normalize_token target.data) ∧
    ((grade_spelling false th1 c1 typed target).2 = "exact" ∨
      (grade_spelling false th1 c1 typed target).2 = "wrong") ∧
    (grade_spelling false th1 c1 typed target).2 ≠ "near" := by
  have hgrade : ∀ (th : ℚ) (c : Bool), grade_spelling false th c typed target =
      if normalize_token (pyStrip typed.data) = normalize_token target.data
      then (true, "exact") else (false, "wrong") := fun th c => rfl
  have hstrip := normalize_token_pyStrip typed.data
  by_cases h : normalize_token (pyStrip typed.data) = normalize_token target.data
  · rw [hgrade th1 c1, hgrade th2 c2, if_pos h]
    refine ⟨rfl, ?_, Or.inl rfl, by simp⟩
    constructor
    · intro _
      rw [← hstrip]
      exact h
    · intro _
      rfl
  · rw [hgrade th1 c1, hgrade th2 c2, if_neg h]
    refine ⟨rfl, ?_, Or.inr rfl, by simp⟩
    constructor
    · intro hc
      simp at hc
    · intro he
      rw [← hstrip] at he
      exact absurd he h

/-- C3 counterexample: with two queued items carrying the same index and
both becoming due, one tick removes **both** (the filter drops every due
item whose index equals the first due item's), so the queue shrinks by 2,
not 1. -/
theorem claim_C3_counterexample :
    sr_tick_and_pick [⟨0, 1⟩, ⟨0, 1⟩] = ([], some 0) := rfl

/-- C3 (amended): every tick decrements all `dueIn` counters (floored at
0); if nothing is due nothing is removed and no index is returned; if
something is due, the **first** due item in insertion order supplies the
returned index and every due item with that same index is removed — in
particular, when the queued indices are pairwise distinct (as in the A/B
scenario) exactly the first due item is removed and the size drops by
exactly one. -/
theorem claim_C3_amended (q : List SRItem) (hnd : (q.map SRItem.idx).Nodup) :
    ((∀ it ∈ q.map decSR, it.due ≠ 0) → sr_tick_and_pick q = (q.map decSR, none)) ∧
    (∀ (it0 : SRItem) (l r : List SRItem), q.map decSR = l ++ it0 :: r →
      (∀ x ∈ l, x.due ≠ 0) → it0.due = 0 →
      sr_tick_and_pick q = (l ++ r, some it0.idx) ∧
        (l ++ r).length + 1 = q.length) := by
  constructor
  · intro hnone
    unfold sr_tick_and_pick
    have hfil : (q.map decSR).filter (fun it => it.due == 0) = [] :=
      List.filter_eq_nil_iff.mpr (fun it hit => by simp [hnone it hit])
    rw [hfil]
  · intro it0 l r hdec hl h0
    have hidx : q.map SRItem.idx = (l.map SRItem.idx) ++ it0.idx :: (r.map SRItem.idx) := by
      have : q.map SRItem.idx = (q.map decSR).map SRItem.idx := by
        rw [List.map_map]
        rfl
      rw [this, hdec, List.map_append, List.map_cons]
    have hrne : ∀ x ∈ r, x.idx ≠ it0.idx := by
      intro x hx hxe
      rw [hidx] at hnd
      have h1 := (List.nodup_append.mp hnd).2.1
      rw [List.nodup_cons] at h1
      exact h1.1 (by rw [← hxe]; exact List.mem_map_of_mem _ hx)
    have hfil : (q.map decSR).filter (fun it => it.due == 0) =
        it0 :: r.filter (fun it => it.due == 0) := by
      rw [hdec, List.filter_append]
      have : l.filter (fun it => it.due == 0) = [] :=
        List.filter_eq_nil_iff.mpr (fun it hit => by simp [hl it hit])
      rw [this, List.nil_append, List.filter_cons_of_pos (by simp [h0])]
    have hrem : (q.map decSR).filter
        (fun it => !(it.due == 0 && it.idx == it0.idx)) = l ++ r := by
      rw [hdec, List.filter_append, List.filter_cons_of_neg (by simp [h0])]
      have hl2 : l.filter (fun it => !(it.due == 0 && it.idx == it0.idx)) = l :=
        List.filter_eq_self.mpr (fun it hit => by simp [hl it hit])
      have hr2 : r.filter (fun it => !(it.due == 0 && it.idx == it0.idx)) = r :=
        List.filter_eq_self.mpr (fun it hit => by simp [hrne it hit])
      rw [hl2, hr2]
    have hlen : (l ++ r).length + 1 = q.length := by
      have : (q.map decSR).length = q.length := List.length_map _ _
      rw [hdec] at this
      simp at this ⊢
      omega
    refine ⟨?_, hlen⟩
    unfold sr_tick_and_pick
    rw [hfil]
    show ((q.map decSR).filter (fun it => !(it.due == 0 && it.idx == it0.idx)),
      some it0.idx) = (l ++ r, some it0.idx)
    rw [hrem]

/-- C3 witness: two distinct-index items inserted A (index 5) then B
(index 7), both scheduled at delay 1, both due on this tick: A's index is
returned and only A is removed. -/
theorem claim_C3_witness :
    sr_tick_and_pick [⟨5, 1⟩, ⟨7, 1⟩] = ([⟨7, 0⟩], some 5) ∧
      ([(⟨7, 0⟩ : SRItem)] : List SRItem).length + 1 =
        ([⟨5, 1⟩, ⟨7, 1⟩] : List SRItem).length :=
  (claim_C3_amended [⟨5, 1⟩, ⟨7, 1⟩] (by decide)).2 ⟨5, 0⟩ [] [⟨7, 0⟩]
    (by decide) (by intro x hx; simp at hx) (by decide)

/-- C1: on every submission `total` increments by 1 and `recordAnswer`
(`update_mastery`) is applied; a correct answer bumps `xp`, `correct` and
`streak` by 1; an incorrect answer zeroes `streak`, schedules the target
index into the SR queue with delay 3, and in Normal practice mode appends
`(word, definition, example)` to the wrong book; a Near verdict with
near-as-correct disabled grades as incorrect and takes exactly the
incorrect path. -/
theorem claim_C1_submit_effects (st : SessionState) (mode : PracticeMode)
    (isCorrect : Bool) (word defn : String) (ex : Option String) (correctIdx : Nat) :
    (submit_update st mode isCorrect word defn ex correctIdx).stats.total =
      st.stats.total + 1 ∧
    (submit_update st mode isCorrect word defn ex correctIdx).mastery =
      update_mastery st.mastery word isCorrect ∧
    (isCorrect = true →
      (submit_update st mode isCorrect word defn ex correctIdx).stats.xp =
        st.stats.xp + 1 ∧
      (submit_update st mode isCorrect word defn ex correctIdx).stats.correct =
        st.stats.correct + 1 ∧
      (submit_update st mode isCorrect word defn ex correctIdx).stats.streak =
        st.stats.streak + 1) ∧
    (isCorrect = false →
      (submit_update st mode isCorrect word defn ex correctIdx).stats.streak = 0 ∧
      (submit_update st mode isCorrect word defn ex correctIdx).sr_queue =
        schedule_spaced_repetition st.sr_queue correctIdx 3 ∧
      (mode = PracticeMode.normal →
        (submit_update st mode isCorrect word defn ex correctIdx).wrong_book =
          add_to_wrong_book st.wrong_book word defn ex)) ∧
    (∀ (th : ℚ) (typed : String),
      spelling_verdict (pyStrip typed.data) word.data th = "near" →
      (grade_spelling true th false typed word).1 = false ∧
      submit_spelling st mode true th false typed word defn ex correctIdx =
        submit_update st mode false word defn ex correctIdx) := by
  have hgrade : ∀ (th : ℚ) (typed : String),
      spelling_verdict (pyStrip typed.data) word.data th = "near" →
      grade_spelling true th false typed word = (false, "near") := by
    intro th typed hv
    simp [grade_spelling, hv]
  refine ⟨?_, ?_, ?_, ?_, ?_⟩
  · cases isCorrect <;> cases mode <;> cases hE : st.exam_active <;>
      simp [submit_update, hE]
  · cases isCorrect <;> cases mode <;> cases hE : st.exam_active <;>
      simp [submit_update, hE]
  · intro hc
    subst hc
    cases mode <;> cases hE : st.exam_active <;> simp [submit_update, hE]
  · intro hc
    subst hc
    cases mode <;> cases hE : st.exam_active <;>
      simp [submit_update, hE, schedule_spaced_repetition]
  · intro th typed hv
    have hg := hgrade th typed hv
    constructor
    · rw [hg]
    · unfold submit_spelling
      rw [hg]

/-- C1 witness: an incorrect Normal-mode submission from a fresh session
bumps `total` to 1, zeroes the streak, appends to the wrong book and
schedules index 0 with delay 3. -/
theorem claim_C1_witness :
    (submit_update ⟨⟨0, 0, 0, 0⟩, [], [], [], false, 0⟩ PracticeMode.normal false
      "cat" "a small feline" none 0).stats.total = 0 + 1 ∧
    (submit_update ⟨⟨0, 0, 0, 0⟩, [], [], [], false, 0⟩ PracticeMode.normal false
      "cat" "a small feline" none 0).stats.streak = 0 ∧
    (submit_update ⟨⟨0, 0, 0, 0⟩, [], [], [], false, 0⟩ PracticeMode.normal false
      "cat" "a small feline" none 0).wrong_book =
      add_to_wrong_book [] "cat" "a small feline" none ∧
    (submit_update ⟨⟨0, 0, 0, 0⟩, [], [], [], false, 0⟩ PracticeMode.normal false
      "cat" "a small feline" none 0).sr_queue =
      schedule_spaced_repetition [] 0 3 := by
  have h := claim_C1_submit_effects ⟨⟨0, 0, 0, 0⟩, [], [], [], false, 0⟩
    PracticeMode.normal false "cat" "a small feline" none 0
  obtain ⟨h1, -, -, h4, -⟩ := h
  obtain ⟨ha, hb, hc⟩ := h4 rfl
  exact ⟨h1, ha, hc rfl, hb⟩

/-- Contract of `random.sample(pop, m)`: on a duplicate-free population
with `m ≤ len(pop)`, it yields `m` distinct elements of the population. -/
def SampleOK (sample : List Nat → Nat → List Nat) : Prop :=
  ∀ (l : List Nat) (m : Nat), l.Nodup → m ≤ l.length →
    (sample l m).length = m ∧ (sample l m).Nodup ∧ ∀ x ∈ sample l m, x ∈ l

/-- Contract of `random.shuffle`: the result is a permutation. -/
def ShuffleOK (shuffle : List Nat → List Nat) : Prop :=
  ∀ l : List Nat, (shuffle l).Perm l

/-- C4 counterexample: at `k = 0` (pool of 2, correct index 0) the code
calls `random.sample(all_idx, -1)`, which raises `ValueError` instead of
returning `min(0, 2) = 0` indices. -/
theorem claim_C4_counterexample :
    pick_options 2 0 0 (fun l m => l.take m) (fun l => l) = none := rfl

/-- C4 (amended): for `n ≤ 1` the result is exactly `[c]`; for `n ≥ 2`,
`c < n` and `k ≥ 1` (the claim fails at `k = 0`, where `random.sample`
raises), the result is `min(k, n)` pairwise-distinct indices below `n`
containing `c` exactly once. -/
theorem claim_C4_pick_options (sample : List Nat → Nat → List Nat)
    (shuffle : List Nat → List Nat) (hs : SampleOK sample) (hsh : ShuffleOK shuffle)
    (n c k : Nat) :
    (n ≤ 1 → pick_options n c k sample shuffle = some [c]) ∧
    (2 ≤ n → c < n → 1 ≤ k →
      ∃ out, pick_options n c k sample shuffle = some out ∧
        out.length = min k n ∧ out.Nodup ∧ out.count c = 1 ∧ ∀ x ∈ out, x < n) := by
  constructor
  · intro h
    unfold pick_options
    rw [if_pos h]
  · intro h2 hc hk
    have hmin : 1 ≤ min k n := by omega
    unfold pick_options
    rw [if_neg (by omega), if_pos hc, if_pos hmin]
    have hndpool : ((List.range n).erase c).Nodup := (List.nodup_range n).erase _
    have hlenpool : ((List.range n).erase c).length = n - 1 := by
      rw [List.length_erase_of_mem (by rw [List.mem_range]; exact hc),
        List.length_range]
    obtain ⟨hsl, hsnd, hssub⟩ :=
      hs ((List.range n).erase c) (min k n - 1) hndpool (by omega)
    have hcnot : c ∉ sample ((List.range n).erase c) (min k n - 1) := by
      intro hmem
      have := hssub c hmem
      rw [(List.nodup_range n).mem_erase_iff] at this
      exact this.1 rfl
    have hperm := hsh (c :: sample ((List.range n).erase c) (min k n - 1))
    refine ⟨_, rfl, ?_, ?_, ?_, ?_⟩
    · rw [hperm.length_eq, List.length_cons, hsl]
      omega
    · rw [hperm.nodup_iff]
      exact List.nodup_cons.mpr ⟨hcnot, hsnd⟩
    · rw [hperm.count_eq, List.count_cons_self]
      rw [List.count_eq_zero.mpr hcnot]
    · intro x hx
      have := hperm.mem_iff.mp hx
      rcases List.mem_cons.mp this with h | h
      · omega
      · have := hssub x h
        rw [(List.nodup_range n).mem_erase_iff] at this
        exact List.mem_range.mp this.2

/-- C4 witness: pool of 4, correct index 2, `k = 4`, with a take-prefix
sample and the identity shuffle. -/
theorem claim_C4_witness :
    ∃ out, pick_options 4 2 4 (fun l m => l.take m) (fun l => l) = some out ∧
      out.length = min 4 4 ∧ out.Nodup ∧ out.count 2 = 1 ∧ ∀ x ∈ out, x < 4 := by
  have hs : SampleOK (fun l m => l.take m) := by
    intro l m hnd hm
    refine ⟨?_, ?_, ?_⟩
    · rw [List.length_take]
      omega
    · exact (List.take_sublist _ _).nodup hnd
    · intro x hx
      exact (List.take_sublist _ _).mem hx
  have hsh : ShuffleOK (fun l => l) := fun l => List.Perm.refl l
  exact (claim_C4_pick_options _ _ hs hsh 4 2 4).2 (by omega) (by omega) (by omega)

/-- State reached from an empty mastery map by a sequence of
`recordAnswer` calls. -/
def apply_mastery_calls (calls : List (String × Bool)) : List (String × MRec) :=
  calls.foldl (fun m c => update_mastery m c.1 c.2) []

theorem update_mastery_inv {m : List (String × MRec)} {w : String} {ok : Bool}
    (h : ∀ p ∈ m, p.2.seen = p.2.correct + p.2.wrong) :
    ∀ p ∈ update_mastery m w ok, p.2.seen = p.2.correct + p.2.wrong := by
  intro p hp
  unfold update_mastery at hp
  split at hp
  · rw [List.mem_map] at hp
    obtain ⟨q, hq, hpq⟩ := hp
    by_cases hqw : q.1 = w
    · rw [if_pos hqw] at hpq
      rw [← hpq]
      have := h q hq
      cases ok <;> simp [bumpMastery] <;> omega
    · rw [if_neg hqw] at hpq
      rw [← hpq]
      exact h q hq
  · rw [List.mem_append] at hp
    rcases hp with hp | hp
    · exact h p hp
    · simp at hp
      rw [hp]
      cases ok <;> simp [bumpMastery]

theorem apply_calls_inv :
    ∀ (calls : List (String × Bool)) (m : List (String × MRec)),
      (∀ p ∈ m, p.2.seen = p.2.correct + p.2.wrong) →
      ∀ p ∈ calls.foldl (fun m c => update_mastery m c.1 c.2) m,
        p.2.seen = p.2.correct + p.2.wrong := by
  intro calls
  induction calls with
  | nil => intro m h; exact h
  | cons c t ih =>
    intro m h
    rw [List.foldl_cons]
    exact ih _ (update_mastery_inv h)

theorem lookup_cons_pair {α β : Type} [BEq α] (a : α) (x : α × β) (t : List (α × β)) :
    List.lookup a (x :: t) = if a == x.1 then some x.2 else List.lookup a t := by
  obtain ⟨k, v⟩ := x
  rw [List.lookup_cons]
  cases h : a == k <;> simp [h]

theorem lookup_isSome_map_keyfix {m : List (String × MRec)} {w : String}
    {g : String × MRec → String × MRec} (hg : ∀ p, (g p).1 = p.1) :
    ((m.map g).lookup w).isSome = (m.lookup w).isSome := by
  induction m with
  | nil => rfl
  | cons p t ih =>
    rw [List.map_cons, lookup_cons_pair, lookup_cons_pair, hg p]
    by_cases h : (w == p.1) = true
    · rw [if_pos h, if_pos h]
      rfl
    · rw [if_neg h, if_neg h]
      exact ih

theorem lookup_append_self {m : List (String × MRec)} {w : String} {r : MRec}
    (h : m.lookup w = none) : (m ++ [(w, r)]).lookup w = some r := by
  induction m with
  | nil =>
    rw [List.nil_append, lookup_cons_pair, if_pos (by simp)]
  | cons p t ih =>
    rw [List.cons_append, lookup_cons_pair]
    rw [lookup_cons_pair] at h
    by_cases hb : (w == p.1) = true
    · rw [if_pos hb] at h
      simp at h
    · rw [if_neg hb] at h
      rw [if_neg hb]
      exact ih h

/-- C5: from an empty mastery map, any sequence of `recordAnswer` calls
keeps `seen = correct + wrong` in every record; a record exists for the
word right after it is recorded (created on first encounter), and no
existing key is ever removed by `recordAnswer`. -/
theorem claim_C5_mastery_invariant :
    (∀ calls : List (String × Bool), ∀ p ∈ apply_mastery_calls calls,
      p.2.seen = p.2.correct + p.2.wrong) ∧
    (∀ (m : List (String × MRec)) (w : String) (ok : Bool),
      ((update_mastery m w ok).lookup w).isSome = true ∧
      (∀ p ∈ m, ∃ r, (p.1, r) ∈ update_mastery m w ok)) := by
  constructor
  · intro calls
    exact apply_calls_inv calls [] (by intro p hp; simp at hp)
  · intro m w ok
    constructor
    · unfold update_mastery
      split
      · rename_i hsome
        rw [@lookup_isSome_map_keyfix m w (fun p => if p.1 = w then
            (p.1, bumpMastery p.2 ok) else p)
          (by intro p; by_cases hp : p.1 = w <;> simp [hp])]
        exact hsome
      · rename_i hnone
        rw [lookup_append_self (Option.not_isSome_iff_eq_none.mp hnone)]
        rfl
    · intro p hp
      unfold update_mastery
      split
      · refine ⟨(if p.1 = w then (p.1, bumpMastery p.2 ok) else p).2, ?_⟩
        have hkey : (p.1, (if p.1 = w then (p.1, bumpMastery p.2 ok) else p).2) =
            (if p.1 = w then (p.1, bumpMastery p.2 ok) else p) := by
          split <;> rfl
        rw [hkey]
        exact List.mem_map_of_mem _ hp
      · exact ⟨p.2, List.mem_append_left _ hp⟩

/-- C5 witness: two answers for the word "a" (one correct, one wrong)
leave the record `{seen 2, correct 1, wrong 1}`, satisfying the
invariant. -/
theorem claim_C5_witness :
    ("a", (⟨2, 1, 1⟩ : MRec)) ∈ apply_mastery_calls [("a", true), ("a", false)] ∧
    (⟨2, 1, 1⟩ : MRec).seen = (⟨2, 1, 1⟩ : MRec).correct + (⟨2, 1, 1⟩ : MRec).wrong :=
  ⟨by decide, claim_C5_mastery_invariant.1 [("a", true), ("a", false)]
    ("a", ⟨2, 1, 1⟩) (by decide)⟩

/-- A wrong-book operation (the two ledger mutators). -/
inductive WBOp where
  | addOp (w d : String) (e : Option String)
  | removeOp (w d : String)

/-- State reached from an empty wrong book by a sequence of operations. -/
def apply_wb_ops (ops : List WBOp) : List WrongEntry :=
  ops.foldl (fun wb op => match op with
    | WBOp.addOp w d e => add_to_wrong_book wb w d e
    | WBOp.removeOp w d => remove_from_wrong_book wb w d) []

/-- Number of entries with the given (word, definition) key. -/
def wbKeyCount (wb : List WrongEntry) (w d : String) : Nat :=
  (wb.filter (fun r => r.word == w && r.defn == d)).length

theorem wb_any_iff (wb : List WrongEntry) (w d : String) :
    wb.any (fun r => r.word == w && r.defn == d) = true ↔ 0 < wbKeyCount wb w d := by
  unfold wbKeyCount
  rw [List.any_eq_true, List.length_pos_iff_exists_mem]
  constructor
  · rintro ⟨r, hr, hp⟩
    exact ⟨r, List.mem_filter.mpr ⟨hr, hp⟩⟩
  · rintro ⟨r, hr⟩
    have := List.mem_filter.mp hr
    exact ⟨r, this.1, this.2⟩

theorem add_wb_count (wb : List WrongEntry) (w d : String) (e : Option String)
    (w' d' : String) :
    wbKeyCount (add_to_wrong_book wb w d e) w' d' =
      if wb.any (fun r => r.word == w && r.defn == d) then wbKeyCount wb w' d'
      else if w = w' ∧ d = d' then wbKeyCount wb w' d' + 1 else wbKeyCount wb w' d' := by
  unfold add_to_wrong_book
  by_cases hany : (wb.any (fun r => r.word == w && r.defn == d)) = true
  · rw [if_pos hany, if_pos hany]
  · rw [if_neg hany, if_neg hany]
    unfold wbKeyCount
    rw [List.filter_append, List.length_append]
    by_cases hkey : w = w' ∧ d = d'
    · rw [if_pos hkey]
      have hone : List.filter (fun r => r.word == w' && r.defn == d')
          ([⟨w, d, e⟩] : List WrongEntry) = [⟨w, d, e⟩] := by
        rw [List.filter_cons_of_pos (by simp [hkey.1, hkey.2])]
        rfl
      rw [hone]
      rfl
    · rw [if_neg hkey]
      have hnone : List.filter (fun r => r.word == w' && r.defn == d')
          ([⟨w, d, e⟩] : List WrongEntry) = [] := by
        rw [List.filter_cons_of_neg (by
          simp only [Bool.and_eq_true, beq_iff_eq]
          intro hcon
          exact hkey ⟨hcon.1, hcon.2⟩)]
        rfl
      rw [hnone]
      rfl

theorem remove_wb_count_le (wb : List WrongEntry) (w d w' d' : String) :
    wbKeyCount (remove_from_wrong_book wb w d) w' d' ≤ wbKeyCount wb w' d' := by
  unfold wbKeyCount remove_from_wrong_book
  exact ((List.filter_sublist wb).filter _).length_le

theorem wb_inv_step (wb : List WrongEntry) (op : WBOp)
    (h : ∀ w d, wbKeyCount wb w d ≤ 1) :
    ∀ w d, wbKeyCount (match op with
      | WBOp.addOp w' d' e => add_to_wrong_book wb w' d' e
      | WBOp.removeOp w' d' => remove_from_wrong_book wb w' d') w d ≤ 1 := by
  intro w d
  cases op with
  | addOp w' d' e =>
    rw [add_wb_count]
    by_cases hany : (wb.any (fun r => r.word == w' && r.defn == d')) = true
    · rw [if_pos hany]
      exact h w d
    · rw [if_neg hany]
      by_cases hkey : w' = w ∧ d' = d
      · rw [if_pos hkey]
        have h0 : wbKeyCount wb w d = 0 := by
          by_contra hne
          apply hany
          rw [wb_any_iff wb w' d', hkey.1, hkey.2]
          omega
        omega
      · rw [if_neg hkey]
        exact h w d
  | removeOp w' d' => exact le_trans (remove_wb_count_le wb w' d' w d) (h w d)

theorem wb_ops_inv : ∀ (ops : List WBOp) (wb : List WrongEntry),
    (∀ w d, wbKeyCount wb w d ≤ 1) →
    ∀ w d, wbKeyCount (ops.foldl (fun wb op => match op with
      | WBOp.addOp w' d' e => add_to_wrong_book wb w' d' e
      | WBOp.removeOp w' d' => remove_from_wrong_book wb w' d') wb) w d ≤ 1 := by
  intro ops
  induction ops with
  | nil => intro wb h; exact h
  | cons op t ih =>
    intro wb h
    rw [List.foldl_cons]
    exact ih _ (wb_inv_step wb op h)

/-- C6: starting from an empty wrong book, after any sequence of
`addToWrongBook`/`removeFromWrongBook` calls no two entries share a
(word, definition) pair; and two consecutive adds of the same
(word, definition) onto any such reachable state leave exactly one entry
with that key. -/
theorem claim_C6_wrongbook_dedup :
    (∀ ops : List WBOp, ∀ w d : String, wbKeyCount (apply_wb_ops ops) w d ≤ 1) ∧
    (∀ (ops : List WBOp) (w d : String) (e e' : Option String),
      wbKeyCount (add_to_wrong_book
        (add_to_wrong_book (apply_wb_ops ops) w d e) w d e') w d = 1) := by
  have hbase : ∀ ops : List WBOp, ∀ w d, wbKeyCount (apply_wb_ops ops) w d ≤ 1 := by
    intro ops w d
    exact wb_ops_inv ops [] (by
      intro w' d'
      unfold wbKeyCount
      simp) w d
  refine ⟨hbase, ?_⟩
  intro ops w d e e'
  have h0 := hbase ops w d
  have h1 : wbKeyCount (add_to_wrong_book (apply_wb_ops ops) w d e) w d = 1 := by
    rw [add_wb_count]
    by_cases hany : ((apply_wb_ops ops).any (fun r => r.word == w && r.defn == d)) = true
    · rw [if_pos hany]
      have := (wb_any_iff _ w d).mp hany
      omega
    · rw [if_neg hany, if_pos ⟨rfl, rfl⟩]
      have hz : wbKeyCount (apply_wb_ops ops) w d = 0 := by
        by_contra hne
        exact hany ((wb_any_iff _ w d).mpr (by omega))
      omega
  rw [add_wb_count, if_pos ((wb_any_iff _ w d).mpr (by omega))]
  exact h1

/-- C6 witness: adding ("cat", "feline") twice from the empty book yields
exactly one entry with that key. -/
theorem claim_C6_witness :
    wbKeyCount (add_to_wrong_book
      (add_to_wrong_book (apply_wb_ops []) "cat" "feline" none)
      "cat" "feline" (some "ex")) "cat" "feline" = 1 :=
  claim_C6_wrongbook_dedup.2 [] "cat" "feline" none (some "ex")

/-- C7 counterexample: a snapshot whose `mastery` field is a dict with a
malformed record (`{"a": 42}` instead of a seen/correct/wrong record) is
applied wholesale — the record shapes are never validated and the prior
in-memory mastery map is replaced rather than left unchanged. -/
theorem claim_C7_counterexample :
    import_progress (some (JVal.jobj
      [("mastery", JVal.jobj [("a", JVal.jnum 42)]), ("wrong_book", JVal.jarr [])]))
      (JVal.jobj []) (JVal.jarr [JVal.jstr "x"]) =
    (JVal.jobj [("a", JVal.jnum 42)], JVal.jarr [], false) := rfl

/-- C7 (amended): the import only validates the *top-level container
types* (`mastery` must be a dict, `wrongBook` a list); element and record
shapes are not checked.  Whenever the handler reports an error (parse
failure, or a top-level value whose membership test/subscripting raises),
both fields are left entirely unchanged; on a top-level object no error
is reported, a field that is absent or of the wrong top-level type leaves
that field's prior value unchanged, and each field is applied
independently of the other. -/
theorem claim_C7_import (parsed : Option JVal) (m0 wb0 : JVal) :
    ((import_progress parsed m0 wb0).2.2 = true →
      (import_progress parsed m0 wb0).1 = m0 ∧
      (import_progress parsed m0 wb0).2.1 = wb0) ∧
    (import_progress none m0 wb0 = (m0, wb0, true)) ∧
    (∀ kvs, (import_progress (some (JVal.jobj kvs)) m0 wb0).2.2 = false) ∧
    (∀ kvs mv, pyLookup kvs "mastery" = some (JVal.jobj mv) →
      (import_progress (some (JVal.jobj kvs)) m0 wb0).1 = JVal.jobj mv) ∧
    (∀ kvs, (∀ v, pyLookup kvs "mastery" = some v → ∀ mv, v ≠ JVal.jobj mv) →
      (import_progress (some (JVal.jobj kvs)) m0 wb0).1 = m0) ∧
    (∀ kvs wv, pyLookup kvs "wrong_book" = some (JVal.jarr wv) →
      (import_progress (some (JVal.jobj kvs)) m0 wb0).2.1 = JVal.jarr wv) ∧
    (∀ kvs, (∀ v, pyLookup kvs "wrong_book" = some v → ∀ wv, v ≠ JVal.jarr wv) →
      (import_progress (some (JVal.jobj kvs)) m0 wb0).2.1 = wb0) := by
  have hobj : ∀ kvs : List (String × JVal),
      import_progress (some (JVal.jobj kvs)) m0 wb0 =
      ((match pyLookup kvs "mastery" with
        | some (JVal.jobj mv) => JVal.jobj mv
        | _ => m0),
       (match pyLookup kvs "wrong_book" with
        | some (JVal.jarr wv) => JVal.jarr wv
        | _ => wb0), false) := fun kvs => rfl
  have hstr : ∀ s : String,
      import_progress (some (JVal.jstr s)) m0 wb0 =
      (if containsSub ("mastery".data) s.data then (m0, wb0, true)
       else if containsSub ("wrong_book".data) s.data then (m0, wb0, true)
       else (m0, wb0, false)) := fun s => rfl
  have harr : ∀ xs : List JVal,
      import_progress (some (JVal.jarr xs)) m0 wb0 =
      (if jstrElem xs "mastery" then (m0, wb0, true)
       else if jstrElem xs "wrong_book" then (m0, wb0, true)
       else (m0, wb0, false)) := fun xs => rfl
  refine ⟨?_, rfl, ?_, ?_, ?_, ?_, ?_⟩
  · intro herr
    cases parsed with
    | none => exact ⟨rfl, rfl⟩
    | some v =>
      cases v with
      | null => exact ⟨rfl, rfl⟩
      | jbool b => exact ⟨rfl, rfl⟩
      | jnum q => exact ⟨rfl, rfl⟩
      | jobj kvs =>
        rw [hobj] at herr
        simp at herr
      | jstr s =>
        rw [hstr]
        split
        · exact ⟨rfl, rfl⟩
        · split
          · exact ⟨rfl, rfl⟩
          · exact ⟨rfl, rfl⟩
      | jarr xs =>
        rw [harr]
        split
        · exact ⟨rfl, rfl⟩
        · split
          · exact ⟨rfl, rfl⟩
          · exact ⟨rfl, rfl⟩
  · intro kvs
    rw [hobj]
  · intro kvs mv hm
    rw [hobj, hm]
  · intro kvs hm
    rw [hobj]
    cases hl : pyLookup kvs "mastery" with
    | none => rfl
    | some v =>
      cases v with
      | jobj mv => exact absurd rfl (hm _ hl mv)
      | null => rfl
      | jbool b => rfl
      | jnum q => rfl
      | jstr s => rfl
      | jarr xs => rfl
  · intro kvs wv hw
    rw [hobj, hw]
  · intro kvs hw
    rw [hobj]
    cases hl : pyLookup kvs "wrong_book" with
    | none => rfl
    | some v =>
      cases v with
      | jarr wv => exact absurd rfl (hw _ hl wv)
      | null => rfl
      | jbool b => rfl
      | jnum q => rfl
      | jstr s => rfl
      | jobj mv => rfl

/-- C7 witness: a snapshot carrying only a well-formed-looking `mastery`
dict replaces the mastery map and leaves the wrong book unchanged. -/
theorem claim_C7_witness :
    (import_progress (some (JVal.jobj [("mastery", JVal.jobj [])]))
      (JVal.jobj [("old", JVal.jnum 1)]) (JVal.jarr [])).1 = JVal.jobj [] ∧
    (import_progress (some (JVal.jobj [("mastery", JVal.jobj [])]))
      (JVal.jobj [("old", JVal.jnum 1)]) (JVal.jarr [])).2.1 = JVal.jarr [] :=
  ⟨(claim_C7_import (some (JVal.jobj [("mastery", JVal.jobj [])]))
      (JVal.jobj [("old", JVal.jnum 1)]) (JVal.jarr [])).2.2.2.1
      [("mastery", JVal.jobj [])] [] rfl,
   (claim_C7_import (some (JVal.jobj [("mastery", JVal.jobj [])]))
      (JVal.jobj [("old", JVal.jnum 1)]) (JVal.jarr [])).2.2.2.2.2.2
      [("mastery", JVal.jobj [])] (by
        intro v hv wv
        rw [show pyLookup [("mastery", JVal.jobj [])] "wrong_book" = none from rfl] at hv
        exact Option.noConfusion hv)⟩

/-- C8 counterexample: the accuracy column is the *string* produced by
`f"{acc:.0f}"`, and pandas sorts the object column lexicographically, so
a 50%-accuracy row sorts **before** a 100%-accuracy row ("50" > "100" as
strings) — not the claimed descending numeric order. -/
theorem claim_C8_counterexample :
    export_csv [("alpha", ⟨1, 1, 0⟩), ("beta", ⟨2, 1, 1⟩)] =
      some [⟨"beta", 2, 1, 1, "50"⟩, ⟨"alpha", 1, 1, 0, "100"⟩] := by decide

/-- C8 (amended): on an empty mastery map the export crashes
(`pd.DataFrame([]).sort_values` raises `KeyError`, modelled by `none`);
on a non-empty map it produces one row per mastery entry — columns word,
seen, correct, wrong and the formatted accuracy string
(`correct/seen*100` rounded, `"0"` when seen is 0) — sorted (stably)
descending by the accuracy **string**, ties broken by descending seen
count: the output is a permutation of the per-word rows and is sorted
under that string ordering. -/
theorem claim_C8_export (m : List (String × MRec)) :
    (m = [] → export_csv m = none) ∧
    (m ≠ [] → ∃ out, export_csv m = some out ∧
      out.Perm (csvRows m) ∧
      List.Sorted rowGE out ∧
      (∀ p ∈ m, masteryRow p.1 p.2 ∈ out) ∧
      out.length = m.length) := by
  cases m with
  | nil =>
    refine ⟨fun _ => rfl, fun h => absurd rfl h⟩
  | cons p t =>
    refine ⟨fun h => List.noConfusion h, fun _ => ?_⟩
    refine ⟨List.insertionSort rowGE (csvRows (p :: t)), rfl,
      List.perm_insertionSort _ _, List.sorted_insertionSort _ _, ?_, ?_⟩
    · intro q hq
      exact (List.perm_insertionSort _ _).mem_iff.mpr (List.mem_map_of_mem _ hq)
    · rw [(List.perm_insertionSort _ _).length_eq]
      exact List.length_map _ _

/-- C8 witness: a one-entry mastery map exports one sorted row. -/
theorem claim_C8_witness :
    ∃ out, export_csv [("alpha", ⟨1, 1, 0⟩)] = some out ∧
      out.Perm (csvRows [("alpha", ⟨1, 1, 0⟩)]) ∧
      List.Sorted rowGE out ∧
      (∀ p ∈ ([("alpha", ⟨1, 1, 0⟩)] : List (String × MRec)),
        masteryRow p.1 p.2 ∈ out) ∧
      out.length = ([("alpha", ⟨1, 1, 0⟩)] : List (String × MRec)).length :=
  (claim_C8_export [("alpha", ⟨1, 1, 0⟩)]).2 (by simp)

end VocabQuiz
